import Mathlib

/-
Verification of the animation scheduler and tween layer of the repository
(source: the module defining `AnimationInstance`, `updateAnimations`,
`AnimationMap`, `during`, `tween`, `easing`, `safeEase`).

Modelling conventions:
* JS numbers are modelled as `Rat` (exact arithmetic); `duration` defaults
  to `Infinity`, modelled as `Option Rat` with `none` for `Infinity`
  (`time >= Infinity` is `false` for every finite `time`).
* JS `Map`s keyed by object identity are modelled as association lists
  keyed by the instance's numeric `id` (ids are unique and monotonically
  increasing in the source, so this is faithful).
* JS `Set`s are modelled as duplicate-free lists preserving insertion
  order (`addUniq`); `Set.add` of an existing element is a no-op, as in JS.
* Callbacks are modelled as a deep-embedded action language `Prog` whose
  actions are exactly the operations the public API offers to a callback
  (destroy, pause/resume via the public `paused` field, `timeScale`
  assignment, registering callbacks, creating instances with `loop` /
  `during`, the `AnimationMap` operations, and returning the `BREAK`
  sentinel).  The interpreter `runProg` mirrors the source of each
  operation.
* Iteration of a JS `Set` during a callback pass is modelled as a fold
  over the list as it was when the pass started; the only divergence from
  live `Set` iteration is that a callback registered on the same instance
  for the same phase during that phase runs from the next pass onward,
  which no claim depends on.  The destroy-application loop, where the
  source relies on live iteration of `destroyedAnimations` visiting
  elements added during the loop, is modelled as an index-driven loop with
  explicit fuel which visits appended elements exactly like the source.
* Ghost instrumentation: the state carries an `events` trace recording
  which instance was advanced and which callback batches fired; the
  interpreter's observable behaviour does not depend on it.
-/

set_option maxHeartbeats 4000000

namespace SomeUtils

/-! ### Association lists (JS `Map` model) -/

def aget {κ α : Type} [DecidableEq κ] : List (κ × α) → κ → Option α
  | [], _ => none
  | (k, v) :: t, k' => if k = k' then some v else aget t k'

def aset {κ α : Type} [DecidableEq κ] : List (κ × α) → κ → α → List (κ × α)
  | [], k, v => [(k, v)]
  | (k0, v0) :: t, k, v => if k0 = k then (k, v) :: t else (k0, v0) :: aset t k v

def adel {κ α : Type} [DecidableEq κ] (l : List (κ × α)) (k : κ) : List (κ × α) :=
  l.filter (fun kv => kv.1 ≠ k)

/-- JS `Set.add`: append if not already a member (insertion order kept). -/
def addUniq (l : List Nat) (x : Nat) : List Nat :=
  if x ∈ l then l else l ++ [x]

/-! ### Numeric helpers (`clamp`, `lerp`) from the source -/

def clampQ (x min max : Rat) : Rat := if x < min then min else if x > max then max else x

def lerp (a b t : Rat) : Rat := a + (b - a) * t

/-! ### The easing table and `safeEase`

The source table maps the fixed names `in2..in6` / `out2..out6` to power
curves; `easing[name]` for any other string is JS `undefined`, modelled as
`none`. -/

def easingLookup : String → Option (Rat → Rat)
  | "in2" => some (fun x => x * x)
  | "in3" => some (fun x => x * x * x)
  | "in4" => some (fun x => x * x * x * x)
  | "in5" => some (fun x => x * x * x * x * x)
  | "in6" => some (fun x => x * x * x * x * x * x)
  | "out2" => some (fun x => 1 - (1 - x) * (1 - x))
  | "out3" => some (fun x => 1 - (1 - x) * (1 - x) * (1 - x))
  | "out4" => some (fun x => 1 - (1 - x) * (1 - x) * (1 - x) * (1 - x))
  | "out5" => some (fun x => 1 - (1 - x) * (1 - x) * (1 - x) * (1 - x) * (1 - x))
  | "out6" => some (fun x => 1 - (1 - x) * (1 - x) * (1 - x) * (1 - x) * (1 - x) * (1 - x))
  | _ => none

/-- The `ease` argument of `tween` / `safeEase`: omitted (`undefined`),
a name (string), or a function. -/
inductive EaseArg where
  | unspecified
  | name (s : String)
  | fnArg (f : Rat → Rat)

/-- `safeEase` from the source: a string is looked up in the table (JS
yields `undefined` for an unknown name, modelled as `none`), a function is
returned as is, anything else resolves to the identity. -/
def safeEase : EaseArg → Option (Rat → Rat)
  | .name s => easingLookup s
  | .fnArg f => some f
  | .unspecified => some (fun x => x)

/-! ### JS values for the tween layer -/

inductive JsVal where
  | num (q : Rat)
  | obj (fields : List (String × JsVal))
  | nan
  | undef
  | other

/-- `typeof v === 'number'` (`NaN` is a number in JS). -/
def typeofNum : JsVal → Bool
  | .num _ => true
  | .nan => true
  | _ => false

/-- `typeof v === 'object'`. -/
def typeofObj : JsVal → Bool
  | .obj _ => true
  | _ => false

/-- `cloneValue` from the source: objects get a shallow clone (same own
enumerable fields); in this functional model a shallow clone has the same
representation as the original. -/
def cloneValue : JsVal → JsVal
  | .obj fields => .obj fields
  | v => v

/-- `lerpObject(receiver, a, b, t)`: for each own key of `a` holding a
number, write `lerp(a[key], b[key], t)` into `receiver`; a non-numeric
`b[key]` makes the JS arithmetic produce `NaN`. -/
def lerpObject (t : Rat) (a b receiver : List (String × JsVal)) : List (String × JsVal) :=
  a.foldl
    (fun recv kv =>
      match kv.2 with
      | .num va =>
        match aget b kv.1 with
        | some (.num vb) => aset recv kv.1 (.num (lerp va vb t))
        | _ => aset recv kv.1 .nan
      | _ => recv)
    receiver

/-- Key set of a tween: union of the keys of `from` and `to`, first
occurrence kept (JS `Set` over `Object.keys`). -/
def tweenKeys (fromL toL : List (String × JsVal)) : List String :=
  ((fromL.map Prod.fst) ++ (toL.map Prod.fst)).dedup

/-- Endpoint snapshot: `cloneValue(src?.[key] ?? target[key])` for each
key (`undefined` when both are absent). -/
def tweenSnap (src target : List (String × JsVal)) (keys : List String) :
    List (String × JsVal) :=
  keys.map (fun k =>
    (k, cloneValue (match aget src k with
      | some v => v
      | none =>
        match aget target k with
        | some v => v
        | none => .undef)))

/-- One application of the tween frame callback at eased progress
`easeFn progress`: numeric target properties are linearly interpolated
between the snapshots, object-valued ones are interpolated field-wise in
place, anything else is untouched. -/
def tweenStep (keys : List String) (fromE toE : List (String × JsVal))
    (easeFn : Rat → Rat) (progress : Rat) (target : List (String × JsVal)) :
    List (String × JsVal) :=
  let t := easeFn progress
  keys.foldl
    (fun tgt k =>
      match aget tgt k with
      | some v =>
        if typeofNum v then
          match aget fromE k, aget toE k with
          | some (.num a), some (.num b) => aset tgt k (.num (lerp a b t))
          | _, _ => aset tgt k .nan
        else if typeofObj v then
          match v with
          | .obj o =>
            let af := match aget fromE k with | some (.obj l) => l | _ => []
            let bf := match aget toE k with | some (.obj l) => l | _ => []
            aset tgt k (.obj (lerpObject t af bf o))
          | _ => tgt
        else tgt
      | none => tgt)
    target

/-! ### Task instance state (`AnimationInstance` fields) -/

structure Inst where
  startTime : Rat
  startFrame : Nat
  timeScale : Rat
  paused : Bool
  time : Rat
  timeOld : Rat
  deltaTime : Rat
  /-- `duration`; `none` models the default `Infinity`. -/
  duration : Option Rat
  destroyed : Bool
  frame : Nat
  deriving DecidableEq

/-- `get complete() { return this.time >= this.duration }`; a finite time
is never `>= Infinity`. -/
def isComplete (i : Inst) : Bool :=
  match i.duration with
  | none => false
  | some d => decide (d ≤ i.time)

/-- `get progress() { return clamp(this.time / this.duration, 0, 1) }`;
division by `Infinity` yields `0` (then clamped). -/
def instProgress (i : Inst) : Rat :=
  match i.duration with
  | none => clampQ 0 0 1
  | some d => clampQ (i.time / d) 0 1

/-- `get normalizedTime() { return clamp(this.time, 0, this.duration) }`. -/
def normalizedTime (i : Inst) : Rat :=
  match i.duration with
  | none => if i.time < 0 then 0 else i.time
  | some d => clampQ i.time 0 d

/-! ### Ghost events recorded by the interpreter -/

inductive Ev where
  /-- `updateAnimation` was invoked on this instance (its clock advanced). -/
  | update (id : Nat)
  /-- one pending next-frame callback of this instance was invoked. -/
  | nextFrameCb (id : Nat)
  /-- the completion branch of `updateAnimation` fired for this instance. -/
  | completeRun (id : Nat)
  /-- one `onComplete` callback of this instance was invoked. -/
  | completeCb (id : Nat)
  /-- `destroyAnimation` invoked this instance's destroy-callback set. -/
  | destroyRun (id : Nat)
  /-- one `onDestroy` callback of this instance was invoked. -/
  | destroyCb (id : Nat)
  deriving DecidableEq

/-- The instance an event belongs to. -/
def evId : Ev → Nat
  | .update id => id
  | .nextFrameCb id => id
  | .completeRun id => id
  | .completeCb id => id
  | .destroyRun id => id
  | .destroyCb id => id

/-- `true` for the events emitted by `destroyAnimation`. -/
def evIsDestroyKind : Ev → Bool
  | .destroyRun _ => true
  | .destroyCb _ => true
  | _ => false

def evCount (l : List Ev) (e : Ev) : Nat :=
  match l with
  | [] => 0
  | e' :: t => (if e' = e then 1 else 0) + evCount t e

/-! ### The callback action language

A callback in the source is arbitrary JS receiving the instance; the
operations it can perform on the scheduler are exactly the public API.
`Prog` deep-embeds those operations; instances are addressed by their
deterministic numeric id. -/

inductive Prog where
  | skip
  | seq (a b : Prog)
  /-- `return BREAK` (the self-destroy sentinel). -/
  | brk
  /-- `animation.destroy()` on the instance running this callback. -/
  | destroySelf
  /-- `instance_i.destroy()`. -/
  | destroyId (i : Nat)
  /-- assignment to the public `paused` field. -/
  | setPausedId (i : Nat) (b : Bool)
  /-- assignment to the public `timeScale` field. -/
  | setTimeScaleId (i : Nat) (q : Rat)
  /-- `instance_i.onFrame(p)`. -/
  | onFrameId (i : Nat) (p : Prog)
  /-- `instance_i.onComplete(p)` (also models `waitCompletion`'s resolver). -/
  | onCompleteId (i : Nat) (p : Prog)
  /-- `instance_i.onDestroy(p)` (also models `waitDestroy`'s resolver). -/
  | onDestroyId (i : Nat) (p : Prog)
  /-- `instance_i.nextFrame()` with resolver `p`. -/
  | nextFrameId (i : Nat) (p : Prog)
  /-- `loop()` with no callback (i.e. `new AnimationInstance()`). -/
  | newLoop
  /-- `loop(p)`. -/
  | newLoopCb (p : Prog)
  /-- `during({duration, delay})` with no callback. -/
  | newDuring (dur delay : Rat)
  /-- `during({duration, delay, immediate}, p)`. -/
  | newDuringCb (dur delay : Rat) (imm : Bool) (p : Prog)
  /-- `AnimationMap.set(target, instance_i)` (`setFor`). -/
  | amapSet (t : Nat) (i : Nat)
  /-- `cancelFor(target)`: `map.get(target)?.destroy()`. -/
  | amapCancel (t : Nat)
  /-- the self-removing closure `AnimationMap.set` attaches via `onDestroy`:
  delete the entry only if it still points to this instance. -/
  | amapCleanup (t : Nat) (i : Nat)
  deriving DecidableEq

/-! ### Scheduler state -/

structure Sched where
  /-- Clock: module-level `time`, `timeOld`, `deltaTime`, `frame`. -/
  time : Rat
  timeOld : Rat
  deltaTime : Rat
  gframe : Nat
  /-- module-level `count` (next fresh id). -/
  count : Nat
  /-- every instance ever created, keyed by id (JS objects never vanish). -/
  insts : List (Nat × Inst)
  /-- the `animations` Set (live set), insertion order. -/
  animations : List Nat
  /-- the `newAnimations` Set. -/
  newAnims : List Nat
  /-- the `destroyedAnimations` Set. -/
  destroyedAnims : List Nat
  frameCbs : List (Nat × List Prog)
  nextFrameCbs : List (Nat × List Prog)
  completeCbs : List (Nat × List Prog)
  destroyCbs : List (Nat × List Prog)
  /-- one `AnimationMap` (`target -> instance`), as used by `duringWithTarget`. -/
  amap : List (Nat × Nat)
  /-- module-level `updating` flag. -/
  updating : Bool
  /-- ghost trace, most recent event first. -/
  events : List Ev
  deriving DecidableEq

def Sched.init : Sched :=
  { time := 0, timeOld := 0, deltaTime := 0, gframe := 0, count := 0, insts := []
    animations := [], newAnims := [], destroyedAnims := []
    frameCbs := [], nextFrameCbs := [], completeCbs := [], destroyCbs := []
    amap := [], updating := false, events := [] }

def emitEv (e : Ev) (s : Sched) : Sched := { s with events := e :: s.events }

def getInst (s : Sched) (id : Nat) : Option Inst := aget s.insts id

def setInst (s : Sched) (id : Nat) (i : Inst) : Sched := { s with insts := aset s.insts id i }

def modifyInst (s : Sched) (id : Nat) (f : Inst → Inst) : Sched :=
  match getInst s id with
  | some i => setInst s id (f i)
  | none => s

/-- `animation.destroyed` (false for an id that does not exist). -/
def isDestroyed (s : Sched) (id : Nat) : Bool :=
  match getInst s id with
  | some i => i.destroyed
  | none => false

/-- `destroy()`: if not yet destroyed, add to `destroyedAnimations` and
set the flag; idempotent by the guard. -/
def destroyMark (s : Sched) (id : Nat) : Sched :=
  match getInst s id with
  | none => s
  | some i =>
    if i.destroyed then s
    else
      { s with insts := aset s.insts id { i with destroyed := true }
               destroyedAnims := s.destroyedAnims ++ [id] }

/-- `CallbackMap.add`: create the per-instance `Set` on demand and add the
callback (adding an identical callback twice is a no-op, as for a JS
`Set`). -/
def pushCb (m : List (Nat × List Prog)) (id : Nat) (p : Prog) : List (Nat × List Prog) :=
  match aget m id with
  | some l => if p ∈ l then m else aset m id (l ++ [p])
  | none => aset m id [p]

/-- `onFrame`: register only when the instance exists and is not
destroyed. -/
def addFrameCb (s : Sched) (id : Nat) (p : Prog) : Sched :=
  match getInst s id with
  | some i => if i.destroyed then s else { s with frameCbs := pushCb s.frameCbs id p }
  | none => s

def addCompleteCb (s : Sched) (id : Nat) (p : Prog) : Sched :=
  match getInst s id with
  | some i => if i.destroyed then s else { s with completeCbs := pushCb s.completeCbs id p }
  | none => s

def addDestroyCb (s : Sched) (id : Nat) (p : Prog) : Sched :=
  match getInst s id with
  | some i => if i.destroyed then s else { s with destroyCbs := pushCb s.destroyCbs id p }
  | none => s

/-- `nextFrame()`: when already destroyed the source returns `null`
without registering anything; otherwise the resolver is registered. -/
def addNextFrameCb (s : Sched) (id : Nat) (p : Prog) : Sched :=
  match getInst s id with
  | some i => if i.destroyed then s else { s with nextFrameCbs := pushCb s.nextFrameCbs id p }
  | none => s

/-- `addAnimation`: into `newAnimations` while `updating`, else into
`animations`. -/
def addAnimationOp (s : Sched) (id : Nat) : Sched :=
  if s.updating then { s with newAnims := addUniq s.newAnims id }
  else { s with animations := addUniq s.animations id }

/-- `new AnimationInstance(cb?)`: fresh id, default fields, optional
`onFrame(cb)`, then `addAnimation(this)`. -/
def newLoopOp (cb : Option Prog) (s : Sched) : Sched × Nat :=
  let id := s.count
  let i : Inst :=
    { startTime := s.time, startFrame := s.gframe, timeScale := 1, paused := false
      time := 0, timeOld := 0, deltaTime := 0, duration := none, destroyed := false
      frame := 0 }
  let s1 := { s with count := id + 1, insts := aset s.insts id i }
  let s2 := match cb with
    | some p => { s1 with frameCbs := pushCb s1.frameCbs id p }
    | none => s1
  (addAnimationOp s2 id, id)

/-- `during(timing, cb?)` without the `immediate` call: create the
instance, then set `duration` and `time = -delay`. -/
def newDuringOp (dur delay : Rat) (cb : Option Prog) (s : Sched) : Sched × Nat :=
  let (s1, id) := newLoopOp cb s
  (modifyInst s1 id (fun i => { i with duration := some dur, time := -delay }), id)

/-- `AnimationMap.set(target, instance)`: destroy the previous occupant,
store the new entry, attach the guarded self-removing destroy callback. -/
def amapSetOp (s : Sched) (t : Nat) (i : Nat) : Sched :=
  let s1 := match aget s.amap t with
    | some j => destroyMark s j
    | none => s
  let s2 := { s1 with amap := aset s1.amap t i }
  addDestroyCb s2 i (.amapCleanup t i)

/-- Interpreter for one callback; the boolean is whether the callback's
return value is the `BREAK` sentinel (a JS `return` exits the callback,
hence the short-circuit in `seq`). -/
def runProg : Prog → Nat → Sched → Sched × Bool
  | .skip, _, s => (s, false)
  | .seq a b, self, s =>
    match runProg a self s with
    | (s1, true) => (s1, true)
    | (s1, false) => runProg b self s1
  | .brk, _, s => (s, true)
  | .destroySelf, self, s => (destroyMark s self, false)
  | .destroyId i, _, s => (destroyMark s i, false)
  | .setPausedId i b, _, s => (modifyInst s i (fun a => { a with paused := b }), false)
  | .setTimeScaleId i q, _, s => (modifyInst s i (fun a => { a with timeScale := q }), false)
  | .onFrameId i p, _, s => (addFrameCb s i p, false)
  | .onCompleteId i p, _, s => (addCompleteCb s i p, false)
  | .onDestroyId i p, _, s => (addDestroyCb s i p, false)
  | .nextFrameId i p, _, s => (addNextFrameCb s i p, false)
  | .newLoop, _, s => ((newLoopOp none s).1, false)
  | .newLoopCb p, _, s => ((newLoopOp (some p) s).1, false)
  | .newDuring dur delay, _, s => ((newDuringOp dur delay none s).1, false)
  | .newDuringCb dur delay imm p, _, s =>
    let r := newDuringOp dur delay (some p) s
    if imm then ((runProg p r.2 r.1).1, false) else (r.1, false)
  | .amapSet t i, _, s => (amapSetOp s t i, false)
  | .amapCancel t, _, s =>
    (match aget s.amap t with
     | some j => destroyMark s j
     | none => s, false)
  | .amapCleanup t i, _, s =>
    (if aget s.amap t = some i then { s with amap := adel s.amap t } else s, false)

/-! ### One tick (`updateAnimation`, `updateAnimations`) -/

/-- Run the frame callbacks of one instance, accumulating whether any of
them returned `BREAK` (`done = (cb(animation) === BREAK) || done`). -/
def runFrameCbs (self : Nat) : List Prog → Sched → Bool → Sched × Bool
  | [], s, done => (s, done)
  | p :: t, s, done =>
    let r := runProg p self s
    runFrameCbs self t r.1 (r.2 || done)

/-- Run the pending next-frame callbacks (same `BREAK` accumulation). -/
def runNextFrameCbs (self : Nat) : List Prog → Sched → Bool → Sched × Bool
  | [], s, done => (s, done)
  | p :: t, s, done =>
    let r := runProg p self (emitEv (.nextFrameCb self) s)
    runNextFrameCbs self t r.1 (r.2 || done)

/-- Run the completion callbacks (return values ignored by the source). -/
def runCompleteCbs (self : Nat) : List Prog → Sched → Sched
  | [], s => s
  | p :: t, s => runCompleteCbs self t (runProg p self (emitEv (.completeCb self) s)).1

/-- Run the destroy callbacks (return values ignored by the source). -/
def runDestroyCbs (self : Nat) : List Prog → Sched → Sched
  | [], s => s
  | p :: t, s => runDestroyCbs self t (runProg p self (emitEv (.destroyCb self) s)).1

/-- `if (animation.complete) { for (const cb of completeCallbacks.get(animation) ?? nothing) cb(animation) }`
(the completion registry is read, not taken-and-cleared). -/
def uaComplete (s : Sched) (id : Nat) : Sched :=
  match getInst s id with
  | some i2 =>
    if isComplete i2 then
      runCompleteCbs id ((aget s.completeCbs id).getD []) (emitEv (.completeRun id) s)
    else s
  | none => s

/-- `if (done || animation.complete) { animation.destroy() }`. -/
def uaPost (s : Sched) (id : Nat) (done : Bool) : Sched :=
  match getInst s id with
  | some i3 => if done || isComplete i3 then destroyMark s id else s
  | none => s

/-- The body of `updateAnimation` once `time >= 0`: frame callbacks, then
take-and-run the pending next-frame callbacks, then the completion check
and the destroy decision. -/
def uaCore (s2 : Sched) (id : Nat) : Sched :=
  let r3 := runFrameCbs id ((aget s2.frameCbs id).getD []) s2 false
  let s4 := { r3.1 with nextFrameCbs := adel r3.1.nextFrameCbs id }
  let r5 := runNextFrameCbs id ((aget r3.1.nextFrameCbs id).getD []) s4 r3.2
  uaPost (uaComplete r5.1 id) id r5.2

/-- `updateAnimation`: advance the instance clock; if the new `time` is
`>= 0`, bump `frame`, run frame then pending next-frame callbacks
(clearing the latter), run completion callbacks when `complete`, and
destroy when `BREAK` was returned or the instance is complete. -/
def updateAnimation (s : Sched) (id : Nat) : Sched :=
  match getInst s id with
  | none => s
  | some i =>
    let dt := s.deltaTime * i.timeScale
    let i1 : Inst := { i with timeOld := i.time, deltaTime := dt, time := i.time + dt }
    let s1 := emitEv (.update id) (setInst s id i1)
    if 0 ≤ i1.time then uaCore (setInst s1 id { i1 with frame := i1.frame + 1 }) id
    else s1

/-- `destroyAnimation`: remove from the live set, drop the frame and
next-frame registries (the completion registry is left as is, exactly as
in the source), then take-and-clear the destroy registry and invoke it. -/
def destroyAnimation (s : Sched) (id : Nat) : Sched :=
  let s1 := { s with animations := s.animations.erase id
                     frameCbs := adel s.frameCbs id
                     nextFrameCbs := adel s.nextFrameCbs id }
  match aget s1.destroyCbs id with
  | none => s1
  | some l =>
    let s2 := { s1 with destroyCbs := adel s1.destroyCbs id }
    runDestroyCbs id l (emitEv (.destroyRun id) s2)

/-- The update pass: iterate the live set as of tick start; skip destroyed
or paused instances (checked per-instance at its turn, as the live JS
iteration does). -/
def updatePassGo : List Nat → Sched → Sched
  | [], s => s
  | id :: t, s =>
    let s' :=
      match getInst s id with
      | some i => if i.destroyed = false && i.paused = false then updateAnimation s id else s
      | none => s
    updatePassGo t s'

/-- The destroy-application loop: visit `destroyedAnimations` by index so
that elements appended by a destroy callback are visited too, as live JS
`Set` iteration does; `fuel` bounds the number of visits (every concrete
run in this file supplies enough). -/
def destroyPhase : Nat → Nat → Sched → Sched
  | 0, _, s => s
  | fuel + 1, k, s =>
    match (s.destroyedAnims.drop k).head? with
    | none => s
    | some id => destroyPhase fuel (k + 1) (destroyAnimation s id)

/-- Merge `newAnimations` into the live set.  The source never clears
`newAnimations`, so neither does the model. -/
def mergeNew (s : Sched) : Sched :=
  { s with animations := s.newAnims.foldl addUniq s.animations }

/-- `updateAnimations()`: set `updating`, run the update pass, apply the
pending destroys, clear `destroyedAnimations`, merge `newAnimations`
(without clearing it), reset `updating`. -/
def updateAnimations (fuel : Nat) (s : Sched) : Sched :=
  let s1 := updatePassGo s.animations { s with updating := true }
  let s2 := destroyPhase fuel 0 s1
  let s3 := { s2 with destroyedAnims := [] }
  { mergeNew s3 with updating := false }

/-- Advance the module clock by `d` seconds. -/
def advClock (d : Rat) (s : Sched) : Sched :=
  { s with timeOld := s.time, time := s.time + d, deltaTime := d, gframe := s.gframe + 1 }

/-- One external tick. -/
def tick (fuel : Nat) (d : Rat) (s : Sched) : Sched :=
  updateAnimations fuel (advClock d s)

/-! ### Driver scripts -/

/-- A run is a sequence of external ticks interleaved with external API
calls (code running between ticks). -/
inductive Step where
  | tick (fuel : Nat) (d : Rat)
  | ext (p : Prog)
  deriving DecidableEq

def runStep (s : Sched) : Step → Sched
  | .tick fuel d => tick fuel d s
  | .ext p => (runProg p s.count s).1

def runScript (steps : List Step) (s : Sched) : Sched :=
  steps.foldl runStep s

/-! ### Concrete runs used by counterexamples -/

/-- Tick 1: instance `0`'s frame callback creates instance `1` (which
therefore lands in `newAnimations`) and returns `BREAK`. -/
def c1script : List Step :=
  [.ext (.newLoopCb (.seq .newLoop .brk)), .tick 4 1, .tick 4 1, .ext (.destroyId 1), .tick 4 1]

/-- Claim C1, failing half: instance `1` is created inside a frame
callback (hence recorded in `newAnimations`, which `updateAnimations`
never clears), is destroyed, is removed from the live set by the
destroy-application phase of the next tick — and the merge phase of that
same tick adds it back.  Afterwards the destroyed instance sits in the
live set permanently. -/
theorem c1_destroyed_reenters_live_set :
    (let s2 := runScript (c1script.take 4) Sched.init
     let s3 := destroyPhase 4 0 (updatePassGo (advClock 1 s2).animations
       { advClock 1 s2 with updating := true })
     1 ∉ s3.animations ∧ 1 ∈ (mergeNew { s3 with destroyedAnims := [] }).animations) ∧
    (let s := runScript c1script Sched.init
     isDestroyed s 1 = true ∧ 1 ∈ s.animations ∧
     isDestroyed (tick 4 1 s) 1 = true ∧ 1 ∈ (tick 4 1 s).animations) := by
  with_unfolding_all decide

/-- Claim C2, counterexample: `during({duration: -3, delay: 2})` is
`complete` from creation on (time `-2 >= -3`), stays complete through
tick 1, yet its completion callback fires only during tick 2 (the first
tick with `time >= 0`) — not during a tick in which `complete` first
becomes true. -/
theorem c2_counterexample :
    (let s1 := runScript [.ext (.newDuring (-3) 2), .ext (.onCompleteId 0 .skip)] Sched.init
     (getInst s1 0).map isComplete = some true ∧
     evCount s1.events (.completeCb 0) = 0 ∧
     (let s2 := tick 4 1 s1
      (getInst s2 0).map isComplete = some true ∧
      evCount s2.events (.completeCb 0) = 0 ∧ evCount s2.events (.completeRun 0) = 0) ∧
     (let s3 := tick 4 1 (tick 4 1 s1)
      evCount s3.events (.completeCb 0) = 1)) := by
  with_unfolding_all decide

/-- Claim C3, counterexample: a next-frame resolver registered on a live
instance is discarded without ever being invoked when the instance is
destroyed before its next advance (`destroyAnimation` deletes the
registry entry without calling it). -/
theorem c3_counterexample :
    (let s1 := runScript [.ext .newLoop, .ext (.nextFrameId 0 .skip)] Sched.init
     aget s1.nextFrameCbs 0 = some [.skip] ∧ isDestroyed s1 0 = false ∧
     (let s2 := runScript [.ext (.destroyId 0), .tick 4 1] s1
      aget s2.nextFrameCbs 0 = none ∧ evCount s2.events (.nextFrameCb 0) = 0 ∧
      evCount (tick 4 1 s2).events (.nextFrameCb 0) = 0)) := by
  with_unfolding_all decide

/-- Claim C7, counterexample: after the destroy-application phase the
frame, next-frame and destroy registries no longer hold the instance,
but the completion registry still does (`destroyAnimation` never touches
`completeCallbacks`). -/
theorem c7_counterexample :
    (let s := runScript
      [.ext (.newDuring 10 0), .ext (.onCompleteId 0 .skip), .ext (.destroyId 0), .tick 4 1]
      Sched.init
     isDestroyed s 0 = true ∧ 0 ∉ s.animations ∧
     aget s.frameCbs 0 = none ∧ aget s.nextFrameCbs 0 = none ∧
     aget s.destroyCbs 0 = none ∧ aget s.completeCbs 0 = some [.skip]) := by
  with_unfolding_all decide

/-- Claim C9, counterexample: for an invalid easing name the source
returns `easing[name]`, i.e. JS `undefined` (`none`), not the identity
function. -/
theorem c9_counterexample :
    safeEase (.name "out7") = none ∧ (none : Option (Rat → Rat)) ≠ some (fun x => x) := by
  exact ⟨rfl, by simp⟩

/-- The tween target of the C10 scenario: `obj.value` starts at `0`. -/
def c10obj : List (String × JsVal) := [("value", .num 0)]

/-- Claim C10: for `tween(obj, {duration: 1}, {to: {value: 10}, ease:
'out3'})` with `obj.value = 0`, the interpolation step at progress `0.5`
sets `obj.value` to `out3(0.5) * 10 = (1 - (1 - 0.5)^3) * 10 = 8.75`. -/
theorem c10_tween_out3 :
    safeEase (.name "out3") = some (fun x => 1 - (1 - x) * (1 - x) * (1 - x)) ∧
    tweenStep (tweenKeys [] [("value", .num 10)])
        (tweenSnap [] c10obj (tweenKeys [] [("value", .num 10)]))
        (tweenSnap [("value", .num 10)] c10obj (tweenKeys [] [("value", .num 10)]))
        (fun x => 1 - (1 - x) * (1 - x) * (1 - x)) (1 / 2) c10obj
      = [("value", .num (35 / 4))] ∧
    (35 / 4 : Rat) = (1 - (1 - 1 / 2) ^ 3) * 10 := by
  refine ⟨rfl, ?_, by norm_num⟩
  with_unfolding_all rfl

/-! ### Basic lemmas about the association lists and events -/

theorem aget_aset_self {κ α : Type} [DecidableEq κ] (l : List (κ × α)) (k : κ) (v : α) :
    aget (aset l k v) k = some v := by
  induction l with
  | nil => simp [aget, aset]
  | cons kv t ih =>
    obtain ⟨k0, v0⟩ := kv
    by_cases h : k0 = k
    · simp [aset, h, aget]
    · simp [aset, h, aget, ih]

theorem aget_aset_ne {κ α : Type} [DecidableEq κ] (l : List (κ × α)) (k j : κ) (v : α)
    (h : j ≠ k) : aget (aset l k v) j = aget l j := by
  induction l with
  | nil => simp [aget, aset, Ne.symm h]
  | cons kv t ih =>
    obtain ⟨k0, v0⟩ := kv
    by_cases h0 : k0 = k
    · subst h0
      simp [aset, aget, Ne.symm h]
    · simp only [aset, if_neg h0]
      by_cases h1 : k0 = j
      · simp [aget, h1]
      · simp [aget, h1, ih]

theorem aget_adel_self {κ α : Type} [DecidableEq κ] (l : List (κ × α)) (k : κ) :
    aget (adel l k) k = none := by
  induction l with
  | nil => simp [adel, aget]
  | cons kv t ih =>
    obtain ⟨k0, v0⟩ := kv
    by_cases h : k0 = k
    · simpa [adel, List.filter_cons, h] using ih
    · simp only [adel, List.filter_cons] at ih ⊢
      simpa [h, aget] using ih

theorem aget_adel_ne {κ α : Type} [DecidableEq κ] (l : List (κ × α)) (k j : κ)
    (h : j ≠ k) : aget (adel l k) j = aget l j := by
  induction l with
  | nil => simp [adel, aget]
  | cons kv t ih =>
    obtain ⟨k0, v0⟩ := kv
    simp only [adel, List.filter_cons] at ih ⊢
    by_cases h0 : k0 = k
    · subst h0
      have hkj : ¬(k0 = j) := fun hh => h (hh ▸ rfl)
      simpa [aget, hkj] using ih
    · by_cases h1 : k0 = j
      · simp [aget, h0, h1, h]
      · simpa [aget, h0, h1] using ih

theorem aget_pushCb_ne (m : List (Nat × List Prog)) (id j : Nat) (p : Prog)
    (h : j ≠ id) : aget (pushCb m id p) j = aget m j := by
  unfold pushCb
  cases hm : aget m id with
  | none => exact aget_aset_ne m id j [p] h
  | some l =>
    by_cases hp : p ∈ l
    · simp [hp]
    · simp only [hp, if_neg]
      exact aget_aset_ne m id j (l ++ [p]) h

theorem mem_addUniq (l : List Nat) (x y : Nat) :
    y ∈ addUniq l x ↔ y ∈ l ∨ y = x := by
  unfold addUniq
  by_cases h : x ∈ l
  · simp only [h, if_pos]
    constructor
    · exact fun hy => Or.inl hy
    · rintro (hy | rfl) <;> [exact hy; exact h]
  · simp [h]

theorem nodup_addUniq (l : List Nat) (x : Nat) (h : l.Nodup) : (addUniq l x).Nodup := by
  unfold addUniq
  by_cases hx : x ∈ l
  · simpa [hx] using h
  · simp [hx, List.nodup_append, h]

theorem evCount_append (a b : List Ev) (e : Ev) :
    evCount (a ++ b) e = evCount a e + evCount b e := by
  induction a with
  | nil => simp [evCount]
  | cons x t ih =>
    show (if x = e then 1 else 0) + evCount (t ++ b) e
        = ((if x = e then 1 else 0) + evCount t e) + evCount b e
    rw [ih]
    omega

theorem evCount_eq_zero_of_not_mem {l : List Ev} {e : Ev} (h : e ∉ l) : evCount l e = 0 := by
  induction l with
  | nil => rfl
  | cons x t ih =>
    simp only [List.mem_cons, not_or] at h
    have hx : ¬(x = e) := fun hh => h.1 hh.symm
    simp [evCount, hx, ih h.2]

theorem evCount_replicate (n : Nat) (e' e : Ev) :
    evCount (List.replicate n e') e = if e' = e then n else 0 := by
  induction n with
  | zero => simp [evCount]
  | succ k ih =>
    simp only [List.replicate_succ, evCount, ih]
    by_cases h : e' = e <;> simp [h, Nat.add_comm]

/-! ### Preservation by callback programs

`InstKeep i i'` records which per-instance fields no callback can change:
the timing fields (`time`, `timeOld`, `deltaTime`, `duration`, `frame`,
`startTime`, `startFrame`) and the monotonicity of `destroyed` (callbacks
may set it via `destroy()` but nothing ever clears it). -/

def InstKeep (i i' : Inst) : Prop :=
  i'.time = i.time ∧ i'.timeOld = i.timeOld ∧ i'.deltaTime = i.deltaTime ∧
  i'.duration = i.duration ∧ i'.frame = i.frame ∧ i'.startTime = i.startTime ∧
  i'.startFrame = i.startFrame ∧ (i.destroyed = true → i'.destroyed = true)

theorem instKeep_refl (i : Inst) : InstKeep i i :=
  ⟨rfl, rfl, rfl, rfl, rfl, rfl, rfl, fun h => h⟩

theorem instKeep_trans {a b c : Inst} (h1 : InstKeep a b) (h2 : InstKeep b c) :
    InstKeep a c := by
  obtain ⟨e1, e2, e3, e4, e5, e6, e7, e8⟩ := h1
  obtain ⟨f1, f2, f3, f4, f5, f6, f7, f8⟩ := h2
  exact ⟨f1.trans e1, f2.trans e2, f3.trans e3, f4.trans e4, f5.trans e5,
    f6.trans e6, f7.trans e7, fun h => f8 (e8 h)⟩

/-- `count` bounds the domain of `insts` (ids are allocated from `count`). -/
def WFc (s : Sched) : Prop := ∀ id, (getInst s id).isSome = true → id < s.count

/-- What running any callback preserves about the scheduler state.
(Callbacks never write the trace, the clock, the `updating` flag, the
timing fields of any existing instance, or the registries of a destroyed
instance; they only append fresh instances to the `Set`s.) -/
structure PPres (s s' : Sched) : Prop where
  count_le : s.count ≤ s'.count
  time_eq : s'.time = s.time
  timeOld_eq : s'.timeOld = s.timeOld
  dt_eq : s'.deltaTime = s.deltaTime
  gframe_eq : s'.gframe = s.gframe
  updating_eq : s'.updating = s.updating
  inst_keep : ∀ id i, getInst s id = some i →
    ∃ i', getInst s' id = some i' ∧ InstKeep i i'
  dom_new : ∀ id, (getInst s' id).isSome = true →
    (getInst s id).isSome = true ∨ (s.count ≤ id ∧ id < s'.count)
  dead_reg : ∀ id, isDestroyed s id = true →
    aget s'.frameCbs id = aget s.frameCbs id ∧
    aget s'.nextFrameCbs id = aget s.nextFrameCbs id ∧
    aget s'.completeCbs id = aget s.completeCbs id ∧
    aget s'.destroyCbs id = aget s.destroyCbs id
  anim_ext : ∃ l, s'.animations = s.animations ++ l ∧ l.Nodup ∧
    ∀ x ∈ l, s.count ≤ x ∧ x < s'.count ∧ (getInst s' x).isSome = true
  new_ext : ∃ l, s'.newAnims = s.newAnims ++ l ∧ l.Nodup ∧
    ∀ x ∈ l, s.count ≤ x ∧ x < s'.count ∧ (getInst s' x).isSome = true
  dead_ext : ∃ l, s'.destroyedAnims = s.destroyedAnims ++ l ∧
    ∀ x ∈ l, x < s'.count ∧ isDestroyed s' x = true
  amapNd_keep : (s.amap.map Prod.fst).Nodup → (s'.amap.map Prod.fst).Nodup

theorem PPres.dflag_mono {s s' : Sched} (h : PPres s s') {id : Nat}
    (hd : isDestroyed s id = true) : isDestroyed s' id = true := by
  unfold isDestroyed at hd ⊢
  cases hg : getInst s id with
  | none => rw [hg] at hd; exact absurd hd (by simp)
  | some i =>
    rw [hg] at hd
    obtain ⟨i', hg', hk⟩ := h.inst_keep id i hg
    rw [hg']
    exact hk.2.2.2.2.2.2.2 hd

theorem PPres.dom_mono {s s' : Sched} (h : PPres s s') {id : Nat}
    (hd : (getInst s id).isSome = true) : (getInst s' id).isSome = true := by
  cases hg : getInst s id with
  | none => rw [hg] at hd; exact absurd hd (by simp)
  | some i =>
    obtain ⟨i', hg', _⟩ := h.inst_keep id i hg
    simp [hg']

theorem PPres.wfc {s s' : Sched} (h : PPres s s') (hwf : WFc s) : WFc s' := by
  intro id hid
  rcases h.dom_new id hid with hold | ⟨_, hlt⟩
  · exact lt_of_lt_of_le (hwf id hold) h.count_le
  · exact hlt

theorem ppres_refl (s : Sched) : PPres s s where
  count_le := le_refl _
  time_eq := rfl
  timeOld_eq := rfl
  dt_eq := rfl
  gframe_eq := rfl
  updating_eq := rfl
  inst_keep := fun _ i h => ⟨i, h, instKeep_refl i⟩
  dom_new := fun _ h => Or.inl h
  dead_reg := fun _ _ => ⟨rfl, rfl, rfl, rfl⟩
  anim_ext := ⟨[], by simp, List.nodup_nil, by simp⟩
  new_ext := ⟨[], by simp, List.nodup_nil, by simp⟩
  dead_ext := ⟨[], by simp, by simp⟩
  amapNd_keep := fun h => h

theorem ppres_trans {s1 s2 s3 : Sched} (h1 : PPres s1 s2) (h2 : PPres s2 s3) :
    PPres s1 s3 where
  count_le := le_trans h1.count_le h2.count_le
  time_eq := h2.time_eq.trans h1.time_eq
  timeOld_eq := h2.timeOld_eq.trans h1.timeOld_eq
  dt_eq := h2.dt_eq.trans h1.dt_eq
  gframe_eq := h2.gframe_eq.trans h1.gframe_eq
  updating_eq := h2.updating_eq.trans h1.updating_eq
  inst_keep := by
    intro id i hg
    obtain ⟨i', hg', hk⟩ := h1.inst_keep id i hg
    obtain ⟨i'', hg'', hk'⟩ := h2.inst_keep id i' hg'
    exact ⟨i'', hg'', instKeep_trans hk hk'⟩
  dom_new := by
    intro id hid
    rcases h2.dom_new id hid with hmid | ⟨hge, hlt⟩
    · rcases h1.dom_new id hmid with hold | ⟨hge1, hlt1⟩
      · exact Or.inl hold
      · exact Or.inr ⟨hge1, lt_of_lt_of_le hlt1 h2.count_le⟩
    · exact Or.inr ⟨le_trans h1.count_le hge, hlt⟩
  dead_reg := by
    intro id hd
    have hd2 := h1.dflag_mono hd
    obtain ⟨a1, b1, c1, d1⟩ := h1.dead_reg id hd
    obtain ⟨a2, b2, c2, d2⟩ := h2.dead_reg id hd2
    exact ⟨a2.trans a1, b2.trans b1, c2.trans c1, d2.trans d1⟩
  anim_ext := by
    obtain ⟨l1, e1, n1, p1⟩ := h1.anim_ext
    obtain ⟨l2, e2, n2, p2⟩ := h2.anim_ext
    refine ⟨l1 ++ l2, by rw [e2, e1, List.append_assoc], ?_, ?_⟩
    · refine List.Nodup.append n1 n2 ?_
      intro x hx1 hx2
      exact absurd ((p2 x hx2).1) (not_le.mpr (lt_of_lt_of_le (p1 x hx1).2.1 (le_refl _)))
    · intro x hx
      rcases List.mem_append.mp hx with hx1 | hx2
      · obtain ⟨ha, hb, hc⟩ := p1 x hx1
        exact ⟨ha, lt_of_lt_of_le hb h2.count_le, h2.dom_mono hc⟩
      · obtain ⟨ha, hb, hc⟩ := p2 x hx2
        exact ⟨le_trans h1.count_le ha, hb, hc⟩
  new_ext := by
    obtain ⟨l1, e1, n1, p1⟩ := h1.new_ext
    obtain ⟨l2, e2, n2, p2⟩ := h2.new_ext
    refine ⟨l1 ++ l2, by rw [e2, e1, List.append_assoc], ?_, ?_⟩
    · refine List.Nodup.append n1 n2 ?_
      intro x hx1 hx2
      exact absurd ((p2 x hx2).1) (not_le.mpr (lt_of_lt_of_le (p1 x hx1).2.1 (le_refl _)))
    · intro x hx
      rcases List.mem_append.mp hx with hx1 | hx2
      · obtain ⟨ha, hb, hc⟩ := p1 x hx1
        exact ⟨ha, lt_of_lt_of_le hb h2.count_le, h2.dom_mono hc⟩
      · obtain ⟨ha, hb, hc⟩ := p2 x hx2
        exact ⟨le_trans h1.count_le ha, hb, hc⟩
  dead_ext := by
    obtain ⟨l1, e1, p1⟩ := h1.dead_ext
    obtain ⟨l2, e2, p2⟩ := h2.dead_ext
    refine ⟨l1 ++ l2, by rw [e2, e1, List.append_assoc], ?_⟩
    intro x hx
    rcases List.mem_append.mp hx with hx1 | hx2
    · exact ⟨lt_of_lt_of_le (p1 x hx1).1 h2.count_le, h2.dflag_mono (p1 x hx1).2⟩
    · exact p2 x hx2
  amapNd_keep := fun h => h2.amapNd_keep (h1.amapNd_keep h)

/-! ### Per-operation facts -/

theorem getInst_setInst_self (s : Sched) (id : Nat) (i : Inst) :
    getInst (setInst s id i) id = some i :=
  aget_aset_self s.insts id i

theorem getInst_setInst_ne (s : Sched) (id j : Nat) (i : Inst) (h : j ≠ id) :
    getInst (setInst s id i) j = getInst s j :=
  aget_aset_ne s.insts id j i h

theorem keys_aset_mem {κ α : Type} [DecidableEq κ] (l : List (κ × α)) (k x : κ) (v : α)
    (hx : x ∈ (aset l k v).map Prod.fst) : x ∈ l.map Prod.fst ∨ x = k := by
  induction l with
  | nil => simpa [aset] using hx
  | cons kv t ih =>
    obtain ⟨k0, v0⟩ := kv
    by_cases h0 : k0 = k
    · subst h0
      rcases (by simpa [aset] using hx : x = k0 ∨ x ∈ t.map Prod.fst) with h | h
      · exact Or.inr h
      · exact Or.inl (by simp [h])
    · rcases (by simpa [aset, h0] using hx : x = k0 ∨ x ∈ (aset t k v).map Prod.fst) with h | h
      · exact Or.inl (by simp [h])
      · rcases ih h with h | h
        · exact Or.inl (by simp [h])
        · exact Or.inr h

theorem nodup_keys_aset {κ α : Type} [DecidableEq κ] (l : List (κ × α)) (k : κ) (v : α)
    (h : (l.map Prod.fst).Nodup) : ((aset l k v).map Prod.fst).Nodup := by
  induction l with
  | nil => simp [aset]
  | cons kv t ih =>
    obtain ⟨k0, v0⟩ := kv
    simp only [List.map_cons, List.nodup_cons] at h
    by_cases h0 : k0 = k
    · subst h0
      simpa [aset] using h
    · simp only [aset, if_neg h0, List.map_cons, List.nodup_cons]
      refine ⟨?_, ih h.2⟩
      intro hmem
      rcases keys_aset_mem t k k0 v hmem with hh | hh
      · exact h.1 hh
      · exact h0 hh

theorem nodup_keys_adel {κ α : Type} [DecidableEq κ] (l : List (κ × α)) (k : κ)
    (h : (l.map Prod.fst).Nodup) : ((adel l k).map Prod.fst).Nodup :=
  ((List.filter_sublist l).map Prod.fst).nodup h

theorem ppres_destroyMark (s : Sched) (id : Nat) (hwf : WFc s) :
    PPres s (destroyMark s id) := by
  unfold destroyMark
  cases hg : getInst s id with
  | none => exact ppres_refl s
  | some i =>
    by_cases hd : i.destroyed
    · simp only [hd, if_true]
      exact ppres_refl s
    · simp only [hd, if_false]
      have hlt : id < s.count := hwf id (by simp [hg])
      constructor
      · exact le_refl _
      · rfl
      · rfl
      · rfl
      · rfl
      · rfl
      · intro j ij hj
        by_cases hji : j = id
        · subst hji
          refine ⟨{ i with destroyed := true }, ?_, ?_⟩
          · show aget (aset s.insts j { i with destroyed := true }) j = _
            exact aget_aset_self _ _ _
          · rw [hg] at hj
            cases hj
            exact ⟨rfl, rfl, rfl, rfl, rfl, rfl, rfl, fun h => rfl⟩
        · refine ⟨ij, ?_, instKeep_refl ij⟩
          show aget (aset s.insts id _) j = _
          rw [aget_aset_ne _ _ _ _ hji]
          exact hj
      · intro j hj
        by_cases hji : j = id
        · subst hji
          exact Or.inl (by simp [hg])
        · left
          show (getInst s j).isSome = true
          have : aget (aset s.insts id { i with destroyed := true }) j = aget s.insts j :=
            aget_aset_ne _ _ _ _ hji
          simpa [getInst, this] using hj
      · intro j _
        exact ⟨rfl, rfl, rfl, rfl⟩
      · exact ⟨[], by simp, List.nodup_nil, by simp⟩
      · exact ⟨[], by simp, List.nodup_nil, by simp⟩
      · refine ⟨[id], rfl, ?_⟩
        intro x hx
        rcases List.mem_singleton.mp hx with rfl
        refine ⟨hlt, ?_⟩
        show isDestroyed _ x = true
        unfold isDestroyed
        show (match aget (aset s.insts x { i with destroyed := true }) x with
          | some i => i.destroyed | none => false) = true
        rw [aget_aset_self]
      · exact fun h => h

theorem ppres_modifyInst (s : Sched) (id : Nat) (f : Inst → Inst)
    (hf : ∀ i, InstKeep i (f i)) : PPres s (modifyInst s id f) := by
  unfold modifyInst
  cases hg : getInst s id with
  | none => exact ppres_refl s
  | some i =>
    constructor
    · exact le_refl _
    · rfl
    · rfl
    · rfl
    · rfl
    · rfl
    · intro j ij hj
      by_cases hji : j = id
      · subst hji
        rw [hg] at hj
        cases hj
        exact ⟨f i, getInst_setInst_self s j (f i), hf i⟩
      · exact ⟨ij, (getInst_setInst_ne s id j (f i) hji).trans hj, instKeep_refl ij⟩
    · intro j hj
      by_cases hji : j = id
      · subst hji
        exact Or.inl (by simp [hg])
      · left
        rw [getInst_setInst_ne s id j (f i) hji] at hj
        exact hj
    · intro j _
      exact ⟨rfl, rfl, rfl, rfl⟩
    · exact ⟨[], by simp [setInst], List.nodup_nil, by simp⟩
    · exact ⟨[], by simp [setInst], List.nodup_nil, by simp⟩
    · refine ⟨[], by simp [setInst], by simp⟩
    · exact fun h => h

theorem isDestroyed_eq_of_getInst {s : Sched} {id : Nat} {i : Inst}
    (hg : getInst s id = some i) : isDestroyed s id = i.destroyed := by
  unfold isDestroyed
  rw [hg]

/-- Preservation for a state that differs from `s` only in the four
callback registries, provided entries of destroyed instances are kept. -/
theorem ppres_of_regs (s : Sched) (fc nc cc dc : List (Nat × List Prog))
    (hfc : ∀ id, isDestroyed s id = true → aget fc id = aget s.frameCbs id)
    (hnc : ∀ id, isDestroyed s id = true → aget nc id = aget s.nextFrameCbs id)
    (hcc : ∀ id, isDestroyed s id = true → aget cc id = aget s.completeCbs id)
    (hdc : ∀ id, isDestroyed s id = true → aget dc id = aget s.destroyCbs id) :
    PPres s { s with frameCbs := fc, nextFrameCbs := nc, completeCbs := cc, destroyCbs := dc } where
  count_le := le_refl _
  time_eq := rfl
  timeOld_eq := rfl
  dt_eq := rfl
  gframe_eq := rfl
  updating_eq := rfl
  inst_keep := fun _ i h => ⟨i, h, instKeep_refl i⟩
  dom_new := fun _ h => Or.inl h
  dead_reg := fun id hd => ⟨hfc id hd, hnc id hd, hcc id hd, hdc id hd⟩
  anim_ext := ⟨[], by simp, List.nodup_nil, by simp⟩
  new_ext := ⟨[], by simp, List.nodup_nil, by simp⟩
  dead_ext := ⟨[], by simp, by simp⟩
  amapNd_keep := fun h => h

theorem ppres_addFrameCb (s : Sched) (id : Nat) (p : Prog) : PPres s (addFrameCb s id p) := by
  unfold addFrameCb
  cases hg : getInst s id with
  | none => exact ppres_refl s
  | some i =>
    by_cases hd : i.destroyed = true
    · simp only [hd, if_true]
      exact ppres_refl s
    · simp only [hd, if_false]
      have := ppres_of_regs s (pushCb s.frameCbs id p) s.nextFrameCbs s.completeCbs s.destroyCbs
        (fun j hj => aget_pushCb_ne s.frameCbs id j p
          (fun hji => hd (by rw [← (hji ▸ hj : isDestroyed s id = true), isDestroyed_eq_of_getInst hg])))
        (fun _ _ => rfl) (fun _ _ => rfl) (fun _ _ => rfl)
      exact this

theorem ppres_addNextFrameCb (s : Sched) (id : Nat) (p : Prog) :
    PPres s (addNextFrameCb s id p) := by
  unfold addNextFrameCb
  cases hg : getInst s id with
  | none => exact ppres_refl s
  | some i =>
    by_cases hd : i.destroyed = true
    · simp only [hd, if_true]
      exact ppres_refl s
    · simp only [hd, if_false]
      exact ppres_of_regs s s.frameCbs (pushCb s.nextFrameCbs id p) s.completeCbs s.destroyCbs
        (fun _ _ => rfl)
        (fun j hj => aget_pushCb_ne s.nextFrameCbs id j p
          (fun hji => hd (by rw [← (hji ▸ hj : isDestroyed s id = true), isDestroyed_eq_of_getInst hg])))
        (fun _ _ => rfl) (fun _ _ => rfl)

theorem ppres_addCompleteCb (s : Sched) (id : Nat) (p : Prog) :
    PPres s (addCompleteCb s id p) := by
  unfold addCompleteCb
  cases hg : getInst s id with
  | none => exact ppres_refl s
  | some i =>
    by_cases hd : i.destroyed = true
    · simp only [hd, if_true]
      exact ppres_refl s
    · simp only [hd, if_false]
      exact ppres_of_regs s s.frameCbs s.nextFrameCbs (pushCb s.completeCbs id p) s.destroyCbs
        (fun _ _ => rfl) (fun _ _ => rfl)
        (fun j hj => aget_pushCb_ne s.completeCbs id j p
          (fun hji => hd (by rw [← (hji ▸ hj : isDestroyed s id = true), isDestroyed_eq_of_getInst hg])))
        (fun _ _ => rfl)

theorem ppres_addDestroyCb (s : Sched) (id : Nat) (p : Prog) :
    PPres s (addDestroyCb s id p) := by
  unfold addDestroyCb
  cases hg : getInst s id with
  | none => exact ppres_refl s
  | some i =>
    by_cases hd : i.destroyed = true
    · simp only [hd, if_true]
      exact ppres_refl s
    · simp only [hd, if_false]
      exact ppres_of_regs s s.frameCbs s.nextFrameCbs s.completeCbs (pushCb s.destroyCbs id p)
        (fun _ _ => rfl) (fun _ _ => rfl) (fun _ _ => rfl)
        (fun j hj => aget_pushCb_ne s.destroyCbs id j p
          (fun hji => hd (by rw [← (hji ▸ hj : isDestroyed s id = true), isDestroyed_eq_of_getInst hg])))

/-- The default field values of a freshly constructed instance. -/
def freshInst (s : Sched) : Inst :=
  { startTime := s.time, startFrame := s.gframe, timeScale := 1, paused := false
    time := 0, timeOld := 0, deltaTime := 0, duration := none, destroyed := false
    frame := 0 }

theorem addAnimationOp_char (s : Sched) (id : Nat) :
    (addAnimationOp s id).events = s.events ∧
    (addAnimationOp s id).count = s.count ∧
    (addAnimationOp s id).insts = s.insts ∧
    (addAnimationOp s id).time = s.time ∧
    (addAnimationOp s id).timeOld = s.timeOld ∧
    (addAnimationOp s id).deltaTime = s.deltaTime ∧
    (addAnimationOp s id).gframe = s.gframe ∧
    (addAnimationOp s id).updating = s.updating ∧
    (addAnimationOp s id).destroyedAnims = s.destroyedAnims ∧
    (addAnimationOp s id).frameCbs = s.frameCbs ∧
    (addAnimationOp s id).nextFrameCbs = s.nextFrameCbs ∧
    (addAnimationOp s id).completeCbs = s.completeCbs ∧
    (addAnimationOp s id).destroyCbs = s.destroyCbs ∧
    (addAnimationOp s id).amap = s.amap ∧
    (∃ la, (addAnimationOp s id).animations = s.animations ++ la ∧ la.Nodup ∧
      ∀ x ∈ la, x = id) ∧
    (∃ ln, (addAnimationOp s id).newAnims = s.newAnims ++ ln ∧ ln.Nodup ∧
      ∀ x ∈ ln, x = id) := by
  unfold addAnimationOp addUniq
  by_cases hu : s.updating = true
  · by_cases hm : id ∈ s.newAnims
    · refine ⟨?_, ?_, ?_, ?_, ?_, ?_, ?_, ?_, ?_, ?_, ?_, ?_, ?_, ?_,
        ⟨[], by simp [hu, hm], List.nodup_nil, by simp⟩,
        ⟨[], by simp [hu, hm], List.nodup_nil, by simp⟩⟩ <;> simp [hu, hm]
    · refine ⟨?_, ?_, ?_, ?_, ?_, ?_, ?_, ?_, ?_, ?_, ?_, ?_, ?_, ?_,
        ⟨[], by simp [hu, hm], List.nodup_nil, by simp⟩,
        ⟨[id], by simp [hu, hm], List.nodup_singleton id, by simp⟩⟩ <;> simp [hu, hm]
  · by_cases hm : id ∈ s.animations
    · refine ⟨?_, ?_, ?_, ?_, ?_, ?_, ?_, ?_, ?_, ?_, ?_, ?_, ?_, ?_,
        ⟨[], by simp [hu, hm], List.nodup_nil, by simp⟩,
        ⟨[], by simp [hu, hm], List.nodup_nil, by simp⟩⟩ <;> simp [hu, hm]
    · refine ⟨?_, ?_, ?_, ?_, ?_, ?_, ?_, ?_, ?_, ?_, ?_, ?_, ?_, ?_,
        ⟨[id], by simp [hu, hm], List.nodup_singleton id, by simp⟩,
        ⟨[], by simp [hu, hm], List.nodup_nil, by simp⟩⟩ <;> simp [hu, hm]

theorem newLoopOp_char (cb : Option Prog) (s : Sched) :
    (newLoopOp cb s).2 = s.count ∧
    (newLoopOp cb s).1.events = s.events ∧
    (newLoopOp cb s).1.count = s.count + 1 ∧
    (newLoopOp cb s).1.insts = aset s.insts s.count (freshInst s) ∧
    (newLoopOp cb s).1.time = s.time ∧
    (newLoopOp cb s).1.timeOld = s.timeOld ∧
    (newLoopOp cb s).1.deltaTime = s.deltaTime ∧
    (newLoopOp cb s).1.gframe = s.gframe ∧
    (newLoopOp cb s).1.updating = s.updating ∧
    (newLoopOp cb s).1.destroyedAnims = s.destroyedAnims ∧
    (newLoopOp cb s).1.nextFrameCbs = s.nextFrameCbs ∧
    (newLoopOp cb s).1.completeCbs = s.completeCbs ∧
    (newLoopOp cb s).1.destroyCbs = s.destroyCbs ∧
    (newLoopOp cb s).1.amap = s.amap ∧
    (∀ j, j ≠ s.count → aget (newLoopOp cb s).1.frameCbs j = aget s.frameCbs j) ∧
    (∃ la, (newLoopOp cb s).1.animations = s.animations ++ la ∧ la.Nodup ∧
      ∀ x ∈ la, x = s.count) ∧
    (∃ ln, (newLoopOp cb s).1.newAnims = s.newAnims ++ ln ∧ ln.Nodup ∧
      ∀ x ∈ ln, x = s.count) := by
  cases cb with
  | none =>
    have h := addAnimationOp_char
      { s with count := s.count + 1, insts := aset s.insts s.count (freshInst s) } s.count
    obtain ⟨h1, h2, h3, h4, h5, h6, h7, h8, h9, h10, h11, h12, h13, h14, h15, h16⟩ := h
    refine ⟨rfl, h1, h2, h3, h4, h5, h6, h7, h8, h9, h11, h12, h13, h14, ?_, h15, h16⟩
    intro j hj
    have he : (newLoopOp none s).1.frameCbs = s.frameCbs := h10
    rw [he]
  | some p =>
    have h := addAnimationOp_char
      { s with count := s.count + 1, insts := aset s.insts s.count (freshInst s),
               frameCbs := pushCb s.frameCbs s.count p } s.count
    obtain ⟨h1, h2, h3, h4, h5, h6, h7, h8, h9, h10, h11, h12, h13, h14, h15, h16⟩ := h
    refine ⟨rfl, h1, h2, h3, h4, h5, h6, h7, h8, h9, h11, h12, h13, h14, ?_, h15, h16⟩
    intro j hj
    have he : (newLoopOp (some p) s).1.frameCbs = pushCb s.frameCbs s.count p := h10
    rw [he]
    exact aget_pushCb_ne s.frameCbs s.count j p hj

theorem ppres_newLoopOp (cb : Option Prog) (s : Sched) (hwf : WFc s) :
    PPres s (newLoopOp cb s).1 := by
  obtain ⟨hsnd, hev, hcnt, hinsts, htime, htold, hdt, hgf, hupd, hdead, hnfc, hcc, hdc,
    hamap, hfc, ⟨la, hla, hlaN, hlaE⟩, ⟨ln, hln, hlnN, hlnE⟩⟩ := newLoopOp_char cb s
  have hgetNe : ∀ j, j ≠ s.count → getInst (newLoopOp cb s).1 j = getInst s j := by
    intro j hj
    show aget (newLoopOp cb s).1.insts j = aget s.insts j
    rw [hinsts]
    exact aget_aset_ne s.insts s.count j (freshInst s) hj
  have hgetNew : getInst (newLoopOp cb s).1 s.count = some (freshInst s) := by
    show aget (newLoopOp cb s).1.insts s.count = some (freshInst s)
    rw [hinsts]
    exact aget_aset_self s.insts s.count (freshInst s)
  constructor
  · rw [hcnt]; omega
  · exact htime
  · exact htold
  · exact hdt
  · exact hgf
  · exact hupd
  · intro j i hj
    have hjlt : j < s.count := hwf j (by simp [hj])
    exact ⟨i, (hgetNe j (Nat.ne_of_lt hjlt)).trans hj, instKeep_refl i⟩
  · intro j hj
    by_cases hje : j = s.count
    · subst hje
      exact Or.inr ⟨le_refl _, by omega⟩
    · rw [hgetNe j hje] at hj
      exact Or.inl hj
  · intro j hj
    have hjs : (getInst s j).isSome = true := by
      unfold isDestroyed at hj
      cases hg : getInst s j with
      | none => rw [hg] at hj; exact absurd hj (by simp)
      | some i => simp [hg]
    have hjlt : j < s.count := hwf j hjs
    refine ⟨hfc j (Nat.ne_of_lt hjlt), by rw [hnfc], by rw [hcc], by rw [hdc]⟩
  · refine ⟨la, hla, hlaN, ?_⟩
    intro x hx
    rcases hlaE x hx with rfl
    exact ⟨le_refl _, by omega, by simp [hgetNew]⟩
  · refine ⟨ln, hln, hlnN, ?_⟩
    intro x hx
    rcases hlnE x hx with rfl
    exact ⟨le_refl _, by omega, by simp [hgetNew]⟩
  · refine ⟨s.destroyedAnims.drop s.destroyedAnims.length, ?_, ?_⟩
    · rw [hdead]; simp
    · simp
  · intro h
    rw [hamap]
    exact h

theorem ppres_modify_fresh {s s1 : Sched} (h : PPres s s1) (hwf : WFc s) (x : Nat)
    (hx : s.count ≤ x) (f : Inst → Inst) (hfdes : ∀ i, (f i).destroyed = i.destroyed) :
    PPres s (modifyInst s1 x f) := by
  unfold modifyInst
  cases hg : getInst s1 x with
  | none => exact h
  | some i =>
    have hdomEq : ∀ j, (getInst (setInst s1 x (f i)) j).isSome = (getInst s1 j).isSome := by
      intro j
      by_cases hj : j = x
      · subst hj
        simp [getInst_setInst_self, hg]
      · rw [getInst_setInst_ne s1 x j (f i) hj]
    have hdesEq : ∀ j, isDestroyed (setInst s1 x (f i)) j = isDestroyed s1 j := by
      intro j
      by_cases hj : j = x
      · subst hj
        unfold isDestroyed
        rw [getInst_setInst_self, hg]
        exact hfdes i
      · unfold isDestroyed
        rw [getInst_setInst_ne s1 x j (f i) hj]
    constructor
    · exact h.count_le
    · exact h.time_eq
    · exact h.timeOld_eq
    · exact h.dt_eq
    · exact h.gframe_eq
    · exact h.updating_eq
    · intro j ij hj
      obtain ⟨i', hg', hk⟩ := h.inst_keep j ij hj
      have hjx : j ≠ x := by
        have : j < s.count := hwf j (by simp [hj])
        omega
      exact ⟨i', (getInst_setInst_ne s1 x j (f i) hjx).trans hg', hk⟩
    · intro j hj
      rw [hdomEq] at hj
      exact h.dom_new j hj
    · intro j hj
      exact h.dead_reg j hj
    · obtain ⟨l, he, hn, hp⟩ := h.anim_ext
      exact ⟨l, he, hn, fun x' hx' =>
        ⟨(hp x' hx').1, (hp x' hx').2.1, by rw [hdomEq]; exact (hp x' hx').2.2⟩⟩
    · obtain ⟨l, he, hn, hp⟩ := h.new_ext
      exact ⟨l, he, hn, fun x' hx' =>
        ⟨(hp x' hx').1, (hp x' hx').2.1, by rw [hdomEq]; exact (hp x' hx').2.2⟩⟩
    · obtain ⟨l, he, hp⟩ := h.dead_ext
      exact ⟨l, he, fun x' hx' => ⟨(hp x' hx').1, by rw [hdesEq]; exact (hp x' hx').2⟩⟩
    · exact h.amapNd_keep

theorem ppres_newDuringOp (dur delay : Rat) (cb : Option Prog) (s : Sched) (hwf : WFc s) :
    PPres s (newDuringOp dur delay cb s).1 := by
  have h1 := ppres_newLoopOp cb s hwf
  have hid : (newLoopOp cb s).2 = s.count := (newLoopOp_char cb s).1
  show PPres s (modifyInst (newLoopOp cb s).1 (newLoopOp cb s).2
    (fun i => { i with duration := some dur, time := -delay }))
  rw [hid]
  exact ppres_modify_fresh h1 hwf s.count (le_refl _) _ (fun i => rfl)

theorem ppres_amap_only (s : Sched) (m : List (Nat × Nat))
    (hnd : (s.amap.map Prod.fst).Nodup → (m.map Prod.fst).Nodup) :
    PPres s { s with amap := m } where
  count_le := le_refl _
  time_eq := rfl
  timeOld_eq := rfl
  dt_eq := rfl
  gframe_eq := rfl
  updating_eq := rfl
  inst_keep := fun _ i h => ⟨i, h, instKeep_refl i⟩
  dom_new := fun _ h => Or.inl h
  dead_reg := fun _ _ => ⟨rfl, rfl, rfl, rfl⟩
  anim_ext := ⟨[], by simp, List.nodup_nil, by simp⟩
  new_ext := ⟨[], by simp, List.nodup_nil, by simp⟩
  dead_ext := ⟨[], by simp, by simp⟩
  amapNd_keep := hnd

theorem ppres_amapSetOp (s : Sched) (t i : Nat) (hwf : WFc s) :
    PPres s (amapSetOp s t i) := by
  unfold amapSetOp
  cases hg : aget s.amap t with
  | none =>
    exact ppres_trans
      (ppres_amap_only s (aset s.amap t i) (fun h => nodup_keys_aset s.amap t i h))
      (ppres_addDestroyCb _ i (.amapCleanup t i))
  | some j =>
    have h1 := ppres_destroyMark s j hwf
    have h2 : (destroyMark s j).amap = s.amap := by
      unfold destroyMark
      cases hg2 : getInst s j with
      | none => rfl
      | some ii => by_cases hd : ii.destroyed = true <;> simp [hd]
    refine ppres_trans h1 (ppres_trans ?_ (ppres_addDestroyCb _ i (.amapCleanup t i)))
    exact ppres_amap_only (destroyMark s j) (aset (destroyMark s j).amap t i)
      (fun h => nodup_keys_aset _ t i h)

theorem runProg_ppres (p : Prog) : ∀ (self : Nat) (s : Sched), WFc s →
    PPres s (runProg p self s).1 := by
  induction p with
  | skip => exact fun _ s _ => ppres_refl s
  | seq a b iha ihb =>
    intro self s hwf
    rcases hr : runProg a self s with ⟨s1, b1⟩
    have ha : PPres s s1 := by
      have := iha self s hwf
      rw [hr] at this
      exact this
    cases b1 with
    | true =>
      show PPres s (match runProg a self s with
        | (s1, true) => (s1, true)
        | (s1, false) => runProg b self s1).1
      rw [hr]
      exact ha
    | false =>
      show PPres s (match runProg a self s with
        | (s1, true) => (s1, true)
        | (s1, false) => runProg b self s1).1
      rw [hr]
      exact ppres_trans ha (ihb self s1 (ha.wfc hwf))
  | brk => exact fun _ s _ => ppres_refl s
  | destroySelf => exact fun self s hwf => ppres_destroyMark s self hwf
  | destroyId i => exact fun _ s hwf => ppres_destroyMark s i hwf
  | setPausedId i b =>
    exact fun _ s _ => ppres_modifyInst s i _
      (fun a => ⟨rfl, rfl, rfl, rfl, rfl, rfl, rfl, fun h => h⟩)
  | setTimeScaleId i q =>
    exact fun _ s _ => ppres_modifyInst s i _
      (fun a => ⟨rfl, rfl, rfl, rfl, rfl, rfl, rfl, fun h => h⟩)
  | onFrameId i p => exact fun _ s _ => ppres_addFrameCb s i p
  | onCompleteId i p => exact fun _ s _ => ppres_addCompleteCb s i p
  | onDestroyId i p => exact fun _ s _ => ppres_addDestroyCb s i p
  | nextFrameId i p => exact fun _ s _ => ppres_addNextFrameCb s i p
  | newLoop => exact fun _ s hwf => ppres_newLoopOp none s hwf
  | newLoopCb p ih => exact fun _ s hwf => ppres_newLoopOp (some p) s hwf
  | newDuring dur delay => exact fun _ s hwf => ppres_newDuringOp dur delay none s hwf
  | newDuringCb dur delay imm p ih =>
    intro self s hwf
    have h1 := ppres_newDuringOp dur delay (some p) s hwf
    cases imm with
    | false => exact h1
    | true =>
      show PPres s ((runProg p (newDuringOp dur delay (some p) s).2
        (newDuringOp dur delay (some p) s).1).1, false).1
      exact ppres_trans h1 (ih _ _ (h1.wfc hwf))
  | amapSet t i => exact fun _ s hwf => ppres_amapSetOp s t i hwf
  | amapCancel t =>
    intro _ s hwf
    show PPres s (match aget s.amap t with
      | some j => destroyMark s j
      | none => s, false).1
    cases hg : aget s.amap t with
    | none => exact ppres_refl s
    | some j => exact ppres_destroyMark s j hwf
  | amapCleanup t i =>
    intro _ s hwf
    show PPres s (if aget s.amap t = some i then { s with amap := adel s.amap t } else s, false).1
    by_cases hg : aget s.amap t = some i
    · simp only [hg, if_pos]
      exact ppres_amap_only s (adel s.amap t) (fun h => nodup_keys_adel s.amap t h)
    · simp only [hg, if_neg, not_false_iff]
      exact ppres_refl s

/-! ### Event traces of the operations -/

theorem ppres_emitEv (s : Sched) (e : Ev) : PPres s (emitEv e s) where
  count_le := le_refl _
  time_eq := rfl
  timeOld_eq := rfl
  dt_eq := rfl
  gframe_eq := rfl
  updating_eq := rfl
  inst_keep := fun _ i h => ⟨i, h, instKeep_refl i⟩
  dom_new := fun _ h => Or.inl h
  dead_reg := fun _ _ => ⟨rfl, rfl, rfl, rfl⟩
  anim_ext := ⟨[], by simp [emitEv], List.nodup_nil, by simp⟩
  new_ext := ⟨[], by simp [emitEv], List.nodup_nil, by simp⟩
  dead_ext := ⟨[], by simp [emitEv], by simp⟩
  amapNd_keep := fun h => h

theorem destroyMark_events (s : Sched) (id : Nat) : (destroyMark s id).events = s.events := by
  unfold destroyMark
  cases getInst s id with
  | none => rfl
  | some i => by_cases hd : i.destroyed = true <;> simp [hd]

theorem modifyInst_events (s : Sched) (id : Nat) (f : Inst → Inst) :
    (modifyInst s id f).events = s.events := by
  unfold modifyInst
  cases getInst s id with
  | none => rfl
  | some i => rfl

theorem addAnimationOp_events2 (s : Sched) (id : Nat) :
    (addAnimationOp s id).events = s.events := by
  unfold addAnimationOp
  by_cases hu : s.updating = true <;> simp [hu]

theorem newLoopOp_events (cb : Option Prog) (s : Sched) :
    (newLoopOp cb s).1.events = s.events := (newLoopOp_char cb s).2.1

theorem newDuringOp_events (dur delay : Rat) (cb : Option Prog) (s : Sched) :
    (newDuringOp dur delay cb s).1.events = s.events := by
  show (modifyInst (newLoopOp cb s).1 (newLoopOp cb s).2 _).events = s.events
  rw [modifyInst_events]
  exact newLoopOp_events cb s

theorem addDestroyCb_events (s : Sched) (id : Nat) (p : Prog) :
    (addDestroyCb s id p).events = s.events := by
  unfold addDestroyCb
  cases getInst s id with
  | none => rfl
  | some i => by_cases hd : i.destroyed = true <;> simp [hd]

theorem amapSetOp_events (s : Sched) (t i : Nat) :
    (amapSetOp s t i).events = s.events := by
  unfold amapSetOp
  cases hg : aget s.amap t with
  | none => rw [addDestroyCb_events]
  | some j =>
    rw [addDestroyCb_events]
    show (destroyMark s j).events = s.events
    exact destroyMark_events s j

theorem runProg_events (p : Prog) : ∀ (self : Nat) (s : Sched),
    (runProg p self s).1.events = s.events := by
  induction p with
  | skip => exact fun _ _ => rfl
  | seq a b iha ihb =>
    intro self s
    rcases hr : runProg a self s with ⟨s1, b1⟩
    have ha : s1.events = s.events := by
      have := iha self s
      rw [hr] at this
      exact this
    cases b1 with
    | true =>
      show (match runProg a self s with
        | (s1, true) => (s1, true)
        | (s1, false) => runProg b self s1).1.events = s.events
      rw [hr]
      exact ha
    | false =>
      show (match runProg a self s with
        | (s1, true) => (s1, true)
        | (s1, false) => runProg b self s1).1.events = s.events
      rw [hr]
      exact (ihb self s1).trans ha
  | brk => exact fun _ _ => rfl
  | destroySelf => exact fun self s => destroyMark_events s self
  | destroyId i => exact fun _ s => destroyMark_events s i
  | setPausedId i b => exact fun _ s => modifyInst_events s i _
  | setTimeScaleId i q => exact fun _ s => modifyInst_events s i _
  | onFrameId i p =>
    intro _ s
    show (addFrameCb s i p).events = s.events
    unfold addFrameCb
    cases getInst s i with
    | none => rfl
    | some a => by_cases hd : a.destroyed = true <;> simp [hd]
  | onCompleteId i p =>
    intro _ s
    show (addCompleteCb s i p).events = s.events
    unfold addCompleteCb
    cases getInst s i with
    | none => rfl
    | some a => by_cases hd : a.destroyed = true <;> simp [hd]
  | onDestroyId i p => exact fun _ s => addDestroyCb_events s i p
  | nextFrameId i p =>
    intro _ s
    show (addNextFrameCb s i p).events = s.events
    unfold addNextFrameCb
    cases getInst s i with
    | none => rfl
    | some a => by_cases hd : a.destroyed = true <;> simp [hd]
  | newLoop => exact fun _ s => newLoopOp_events none s
  | newLoopCb p ih => exact fun _ s => newLoopOp_events (some p) s
  | newDuring dur delay => exact fun _ s => newDuringOp_events dur delay none s
  | newDuringCb dur delay imm p ih =>
    intro self s
    cases imm with
    | false => exact newDuringOp_events dur delay (some p) s
    | true =>
      show (runProg p (newDuringOp dur delay (some p) s).2
        (newDuringOp dur delay (some p) s).1).1.events = s.events
      exact (ih _ _).trans (newDuringOp_events dur delay (some p) s)
  | amapSet t i => exact fun _ s => amapSetOp_events s t i
  | amapCancel t =>
    intro _ s
    show (match aget s.amap t with
      | some j => destroyMark s j
      | none => s, false).1.events = s.events
    cases aget s.amap t with
    | none => rfl
    | some j => exact destroyMark_events s j
  | amapCleanup t i =>
    intro _ s
    show (if aget s.amap t = some i then { s with amap := adel s.amap t } else s,
      false).1.events = s.events
    by_cases hg : aget s.amap t = some i <;> simp [hg]

/-! ### The callback folds -/

theorem runFrameCbs_events (self : Nat) (l : List Prog) : ∀ (s : Sched) (d : Bool),
    (runFrameCbs self l s d).1.events = s.events := by
  induction l with
  | nil => exact fun _ _ => rfl
  | cons p t ih =>
    intro s d
    show (runFrameCbs self t (runProg p self s).1 _).1.events = s.events
    rw [ih]
    exact runProg_events p self s

theorem runFrameCbs_ppres (self : Nat) (l : List Prog) : ∀ (s : Sched) (d : Bool),
    WFc s → PPres s (runFrameCbs self l s d).1 := by
  induction l with
  | nil => exact fun s _ _ => ppres_refl s
  | cons p t ih =>
    intro s d hwf
    have h1 := runProg_ppres p self s hwf
    exact ppres_trans h1 (ih _ _ (h1.wfc hwf))

theorem runNextFrameCbs_events (self : Nat) (l : List Prog) : ∀ (s : Sched) (d : Bool),
    (runNextFrameCbs self l s d).1.events
      = List.replicate l.length (Ev.nextFrameCb self) ++ s.events := by
  induction l with
  | nil => exact fun _ _ => rfl
  | cons p t ih =>
    intro s d
    show (runNextFrameCbs self t (runProg p self (emitEv (.nextFrameCb self) s)).1 _).1.events = _
    rw [ih, runProg_events]
    show List.replicate t.length (Ev.nextFrameCb self) ++ (Ev.nextFrameCb self :: s.events) = _
    rw [List.length_cons, List.replicate_succ']
    simp

theorem runNextFrameCbs_ppres (self : Nat) (l : List Prog) : ∀ (s : Sched) (d : Bool),
    WFc s → PPres s (runNextFrameCbs self l s d).1 := by
  induction l with
  | nil => exact fun s _ _ => ppres_refl s
  | cons p t ih =>
    intro s d hwf
    have h0 := ppres_emitEv s (.nextFrameCb self)
    have h1 := runProg_ppres p self (emitEv (.nextFrameCb self) s) (h0.wfc hwf)
    exact ppres_trans (ppres_trans h0 h1) (ih _ _ (h1.wfc (h0.wfc hwf)))

theorem runCompleteCbs_events (self : Nat) (l : List Prog) : ∀ (s : Sched),
    (runCompleteCbs self l s).events
      = List.replicate l.length (Ev.completeCb self) ++ s.events := by
  induction l with
  | nil => exact fun _ => rfl
  | cons p t ih =>
    intro s
    show (runCompleteCbs self t (runProg p self (emitEv (.completeCb self) s)).1).events = _
    rw [ih, runProg_events]
    show List.replicate t.length (Ev.completeCb self) ++ (Ev.completeCb self :: s.events) = _
    rw [List.length_cons, List.replicate_succ']
    simp

theorem runCompleteCbs_ppres (self : Nat) (l : List Prog) : ∀ (s : Sched),
    WFc s → PPres s (runCompleteCbs self l s) := by
  induction l with
  | nil => exact fun s _ => ppres_refl s
  | cons p t ih =>
    intro s hwf
    have h0 := ppres_emitEv s (.completeCb self)
    have h1 := runProg_ppres p self (emitEv (.completeCb self) s) (h0.wfc hwf)
    exact ppres_trans (ppres_trans h0 h1) (ih _ (h1.wfc (h0.wfc hwf)))

theorem runDestroyCbs_events (self : Nat) (l : List Prog) : ∀ (s : Sched),
    (runDestroyCbs self l s).events
      = List.replicate l.length (Ev.destroyCb self) ++ s.events := by
  induction l with
  | nil => exact fun _ => rfl
  | cons p t ih =>
    intro s
    show (runDestroyCbs self t (runProg p self (emitEv (.destroyCb self) s)).1).events = _
    rw [ih, runProg_events]
    show List.replicate t.length (Ev.destroyCb self) ++ (Ev.destroyCb self :: s.events) = _
    rw [List.length_cons, List.replicate_succ']
    simp

theorem runDestroyCbs_ppres (self : Nat) (l : List Prog) : ∀ (s : Sched),
    WFc s → PPres s (runDestroyCbs self l s) := by
  induction l with
  | nil => exact fun s _ => ppres_refl s
  | cons p t ih =>
    intro s hwf
    have h0 := ppres_emitEv s (.destroyCb self)
    have h1 := runProg_ppres p self (emitEv (.destroyCb self) s) (h0.wfc hwf)
    exact ppres_trans (ppres_trans h0 h1) (ih _ (h1.wfc (h0.wfc hwf)))

/-! ### Preservation by one `updateAnimation` step

`updateAnimation s x` may change `x`'s timing fields and clear `x`'s
pending next-frame registry, so the per-instance preservation facts are
stated for every other instance; `destroyed` stays monotone for all. -/

structure UPres (x : Nat) (s s' : Sched) : Prop where
  count_le : s.count ≤ s'.count
  time_eq : s'.time = s.time
  timeOld_eq : s'.timeOld = s.timeOld
  dt_eq : s'.deltaTime = s.deltaTime
  gframe_eq : s'.gframe = s.gframe
  updating_eq : s'.updating = s.updating
  inst_keep : ∀ id i, id ≠ x → getInst s id = some i →
    ∃ i', getInst s' id = some i' ∧ InstKeep i i'
  dom_mono : ∀ id, (getInst s id).isSome = true → (getInst s' id).isSome = true
  des_mono : ∀ id, isDestroyed s id = true → isDestroyed s' id = true
  dom_new : ∀ id, (getInst s' id).isSome = true →
    (getInst s id).isSome = true ∨ (s.count ≤ id ∧ id < s'.count)
  dead_reg : ∀ id, id ≠ x → isDestroyed s id = true →
    aget s'.frameCbs id = aget s.frameCbs id ∧
    aget s'.nextFrameCbs id = aget s.nextFrameCbs id ∧
    aget s'.completeCbs id = aget s.completeCbs id ∧
    aget s'.destroyCbs id = aget s.destroyCbs id
  anim_ext : ∃ l, s'.animations = s.animations ++ l ∧ l.Nodup ∧
    ∀ y ∈ l, s.count ≤ y ∧ y < s'.count ∧ (getInst s' y).isSome = true
  new_ext : ∃ l, s'.newAnims = s.newAnims ++ l ∧ l.Nodup ∧
    ∀ y ∈ l, s.count ≤ y ∧ y < s'.count ∧ (getInst s' y).isSome = true
  dead_ext : ∃ l, s'.destroyedAnims = s.destroyedAnims ++ l ∧
    ∀ y ∈ l, y < s'.count ∧ isDestroyed s' y = true
  amapNd_keep : (s.amap.map Prod.fst).Nodup → (s'.amap.map Prod.fst).Nodup

theorem PPres.toUPres {s s' : Sched} (h : PPres s s') (x : Nat) : UPres x s s' where
  count_le := h.count_le
  time_eq := h.time_eq
  timeOld_eq := h.timeOld_eq
  dt_eq := h.dt_eq
  gframe_eq := h.gframe_eq
  updating_eq := h.updating_eq
  inst_keep := fun id i _ hg => h.inst_keep id i hg
  dom_mono := fun id hg => h.dom_mono hg
  des_mono := fun id hd => h.dflag_mono hd
  dom_new := h.dom_new
  dead_reg := fun id _ hd => h.dead_reg id hd
  anim_ext := h.anim_ext
  new_ext := h.new_ext
  dead_ext := h.dead_ext
  amapNd_keep := h.amapNd_keep

theorem UPres.uwfc {x : Nat} {s s' : Sched} (h : UPres x s s') (hwf : WFc s) : WFc s' := by
  intro id hid
  rcases h.dom_new id hid with hold | ⟨_, hlt⟩
  · exact lt_of_lt_of_le (hwf id hold) h.count_le
  · exact hlt

theorem upres_trans {x : Nat} {s1 s2 s3 : Sched} (h1 : UPres x s1 s2) (h2 : UPres x s2 s3) :
    UPres x s1 s3 where
  count_le := le_trans h1.count_le h2.count_le
  time_eq := h2.time_eq.trans h1.time_eq
  timeOld_eq := h2.timeOld_eq.trans h1.timeOld_eq
  dt_eq := h2.dt_eq.trans h1.dt_eq
  gframe_eq := h2.gframe_eq.trans h1.gframe_eq
  updating_eq := h2.updating_eq.trans h1.updating_eq
  inst_keep := by
    intro id i hne hg
    obtain ⟨i', hg', hk⟩ := h1.inst_keep id i hne hg
    obtain ⟨i'', hg'', hk'⟩ := h2.inst_keep id i' hne hg'
    exact ⟨i'', hg'', instKeep_trans hk hk'⟩
  dom_mono := fun id hg => h2.dom_mono id (h1.dom_mono id hg)
  des_mono := fun id hd => h2.des_mono id (h1.des_mono id hd)
  dom_new := by
    intro id hid
    rcases h2.dom_new id hid with hmid | ⟨hge, hlt⟩
    · rcases h1.dom_new id hmid with hold | ⟨hge1, hlt1⟩
      · exact Or.inl hold
      · exact Or.inr ⟨hge1, lt_of_lt_of_le hlt1 h2.count_le⟩
    · exact Or.inr ⟨le_trans h1.count_le hge, hlt⟩
  dead_reg := by
    intro id hne hd
    obtain ⟨a1, b1, c1, d1⟩ := h1.dead_reg id hne hd
    obtain ⟨a2, b2, c2, d2⟩ := h2.dead_reg id hne (h1.des_mono id hd)
    exact ⟨a2.trans a1, b2.trans b1, c2.trans c1, d2.trans d1⟩
  anim_ext := by
    obtain ⟨l1, e1, n1, p1⟩ := h1.anim_ext
    obtain ⟨l2, e2, n2, p2⟩ := h2.anim_ext
    refine ⟨l1 ++ l2, by rw [e2, e1, List.append_assoc], ?_, ?_⟩
    · refine List.Nodup.append n1 n2 ?_
      intro y hy1 hy2
      exact absurd ((p2 y hy2).1) (not_le.mpr (lt_of_lt_of_le (p1 y hy1).2.1 (le_refl _)))
    · intro y hy
      rcases List.mem_append.mp hy with hy1 | hy2
      · obtain ⟨ha, hb, hc⟩ := p1 y hy1
        exact ⟨ha, lt_of_lt_of_le hb h2.count_le, h2.dom_mono y hc⟩
      · obtain ⟨ha, hb, hc⟩ := p2 y hy2
        exact ⟨le_trans h1.count_le ha, hb, hc⟩
  new_ext := by
    obtain ⟨l1, e1, n1, p1⟩ := h1.new_ext
    obtain ⟨l2, e2, n2, p2⟩ := h2.new_ext
    refine ⟨l1 ++ l2, by rw [e2, e1, List.append_assoc], ?_, ?_⟩
    · refine List.Nodup.append n1 n2 ?_
      intro y hy1 hy2
      exact absurd ((p2 y hy2).1) (not_le.mpr (lt_of_lt_of_le (p1 y hy1).2.1 (le_refl _)))
    · intro y hy
      rcases List.mem_append.mp hy with hy1 | hy2
      · obtain ⟨ha, hb, hc⟩ := p1 y hy1
        exact ⟨ha, lt_of_lt_of_le hb h2.count_le, h2.dom_mono y hc⟩
      · obtain ⟨ha, hb, hc⟩ := p2 y hy2
        exact ⟨le_trans h1.count_le ha, hb, hc⟩
  dead_ext := by
    obtain ⟨l1, e1, p1⟩ := h1.dead_ext
    obtain ⟨l2, e2, p2⟩ := h2.dead_ext
    refine ⟨l1 ++ l2, by rw [e2, e1, List.append_assoc], ?_⟩
    intro y hy
    rcases List.mem_append.mp hy with hy1 | hy2
    · exact ⟨lt_of_lt_of_le (p1 y hy1).1 h2.count_le, h2.des_mono y (p1 y hy1).2⟩
    · exact p2 y hy2
  amapNd_keep := fun h => h2.amapNd_keep (h1.amapNd_keep h)

/-- `setInst` on the exempted instance keeps a `UPres` provided the
written record preserves the `destroyed` flag of the stored one. -/
theorem upres_setInst_x (s : Sched) (x : Nat) (iold inew : Inst)
    (hold : getInst s x = some iold) (hdes : inew.destroyed = iold.destroyed) :
    UPres x s (setInst s x inew) where
  count_le := le_refl _
  time_eq := rfl
  timeOld_eq := rfl
  dt_eq := rfl
  gframe_eq := rfl
  updating_eq := rfl
  inst_keep := fun id i hne hg =>
    ⟨i, (getInst_setInst_ne s x id inew hne).trans hg, instKeep_refl i⟩
  dom_mono := by
    intro id hg
    by_cases hne : id = x
    · subst hne
      simp [getInst_setInst_self]
    · rw [getInst_setInst_ne s x id inew hne]
      exact hg
  des_mono := by
    intro id hd
    by_cases hne : id = x
    · subst hne
      unfold isDestroyed at hd ⊢
      rw [getInst_setInst_self]
      rw [hold] at hd
      show inew.destroyed = true
      rw [hdes]
      exact hd
    · unfold isDestroyed at hd ⊢
      rw [getInst_setInst_ne s x id inew hne]
      exact hd
  dom_new := by
    intro id hid
    by_cases hne : id = x
    · subst hne
      exact Or.inl (by simp [hold])
    · rw [getInst_setInst_ne s x id inew hne] at hid
      exact Or.inl hid
  dead_reg := fun _ _ _ => ⟨rfl, rfl, rfl, rfl⟩
  anim_ext := ⟨[], by simp [setInst], List.nodup_nil, by simp⟩
  new_ext := ⟨[], by simp [setInst], List.nodup_nil, by simp⟩
  dead_ext := ⟨[], by simp [setInst], by simp⟩
  amapNd_keep := fun h => h

/-- Deleting the exempted instance's pending next-frame registry entry. -/
theorem upres_adel_nfc (s : Sched) (x : Nat) :
    UPres x s { s with nextFrameCbs := adel s.nextFrameCbs x } where
  count_le := le_refl _
  time_eq := rfl
  timeOld_eq := rfl
  dt_eq := rfl
  gframe_eq := rfl
  updating_eq := rfl
  inst_keep := fun _ i _ hg => ⟨i, hg, instKeep_refl i⟩
  dom_mono := fun _ hg => hg
  des_mono := fun _ hd => hd
  dom_new := fun _ h => Or.inl h
  dead_reg := fun id hne _ => ⟨rfl, aget_adel_ne s.nextFrameCbs x id hne, rfl, rfl⟩
  anim_ext := ⟨[], by simp, List.nodup_nil, by simp⟩
  new_ext := ⟨[], by simp, List.nodup_nil, by simp⟩
  dead_ext := ⟨[], by simp, by simp⟩
  amapNd_keep := fun h => h

theorem isDestroyed_destroyMark_self {s : Sched} {id : Nat} {i : Inst}
    (hg : getInst s id = some i) : isDestroyed (destroyMark s id) id = true := by
  unfold destroyMark
  rw [hg]
  by_cases hd : i.destroyed = true
  · simp only [hd, if_true]
    rw [isDestroyed_eq_of_getInst hg]
    exact hd
  · simp only [hd, if_false]
    unfold isDestroyed
    show (match aget (aset s.insts id { i with destroyed := true }) id with
      | some i => i.destroyed | none => false) = true
    rw [aget_aset_self]

/-- `completeAt t d` is the value of the `complete` getter for an
instance with `time = t` and `duration = d`. -/
def completeAt (t : Rat) : Option Rat → Bool
  | none => false
  | some d => decide (d ≤ t)

theorem isComplete_eq_completeAt (i : Inst) : isComplete i = completeAt i.time i.duration := by
  unfold isComplete completeAt
  cases i.duration <;> rfl

theorem isComplete_congr {a b : Inst} (ht : b.time = a.time) (hd : b.duration = a.duration) :
    isComplete b = isComplete a := by
  rw [isComplete_eq_completeAt, isComplete_eq_completeAt, ht, hd]

theorem uaComplete_eq_fire {s : Sched} {id : Nat} {i2 : Inst} (hg : getInst s id = some i2)
    (hc : isComplete i2 = true) :
    uaComplete s id
      = runCompleteCbs id ((aget s.completeCbs id).getD []) (emitEv (.completeRun id) s) := by
  unfold uaComplete
  rw [hg]
  simp [hc]

theorem uaComplete_eq_skip {s : Sched} {id : Nat} {i2 : Inst} (hg : getInst s id = some i2)
    (hc : isComplete i2 = false) : uaComplete s id = s := by
  unfold uaComplete
  rw [hg]
  simp [hc]

theorem uaPost_eq_destroy {s : Sched} {id : Nat} {i3 : Inst} {done : Bool}
    (hg : getInst s id = some i3) (hc : (done || isComplete i3) = true) :
    uaPost s id done = destroyMark s id := by
  unfold uaPost
  rw [hg]
  simp [hc]

theorem uaPost_eq_keep {s : Sched} {id : Nat} {i3 : Inst} {done : Bool}
    (hg : getInst s id = some i3) (hc : (done || isComplete i3) = false) :
    uaPost s id done = s := by
  unfold uaPost
  rw [hg]
  simp [hc]

theorem wfc_setInst_existing {s : Sched} {id : Nat} {iold i : Inst}
    (hwf : WFc s) (hg : getInst s id = some iold) : WFc (setInst s id i) := by
  intro j hj
  by_cases hji : j = id
  · subst hji
    exact hwf j (by simp [hg])
  · rw [getInst_setInst_ne s id j i hji] at hj
    exact hwf j hj

theorem uaCore_spec (s2 : Sched) (id : Nat) (i1 : Inst) (hwf : WFc s2)
    (hg : getInst s2 id = some i1) :
    UPres id s2 (uaCore s2 id) ∧
    ∃ Δ, (uaCore s2 id).events = Δ ++ s2.events ∧
      (∀ e ∈ Δ, evId e = id ∧ evIsDestroyKind e = false) ∧
      evCount Δ (Ev.completeRun id) = (if isComplete i1 = true then 1 else 0) ∧
      (isComplete i1 = true → isDestroyed (uaCore s2 id) id = true) := by
  have hp3 := runFrameCbs_ppres id ((aget s2.frameCbs id).getD []) s2 false hwf
  have hev3 := runFrameCbs_events id ((aget s2.frameCbs id).getD []) s2 false
  set r3 := runFrameCbs id ((aget s2.frameCbs id).getD []) s2 false with hr3
  obtain ⟨i2a, hg3, hk3⟩ := hp3.inst_keep id i1 hg
  have hwf3 : WFc r3.1 := hp3.wfc hwf
  set s4 : Sched := { r3.1 with nextFrameCbs := adel r3.1.nextFrameCbs id } with hs4
  have hu4 : UPres id r3.1 s4 := upres_adel_nfc r3.1 id
  have hg4 : getInst s4 id = some i2a := hg3
  have hwf4 : WFc s4 := hu4.uwfc hwf3
  have hev4 : s4.events = r3.1.events := rfl
  set nfc := (aget r3.1.nextFrameCbs id).getD [] with hnfc
  have hp5 := runNextFrameCbs_ppres id nfc s4 r3.2 hwf4
  have hev5 := runNextFrameCbs_events id nfc s4 r3.2
  set r5 := runNextFrameCbs id nfc s4 r3.2 with hr5
  obtain ⟨i2, hg5, hk5⟩ := hp5.inst_keep id i2a hg4
  have hwf5 : WFc r5.1 := hp5.wfc hwf4
  have hteq : i2.time = i1.time := hk5.1.trans hk3.1
  have hdeq : i2.duration = i1.duration := hk5.2.2.2.1.trans hk3.2.2.2.1
  have hceq : isComplete i2 = isComplete i1 := isComplete_congr hteq hdeq
  have hcore : uaCore s2 id = uaPost (uaComplete r5.1 id) id r5.2 := rfl
  by_cases hc : isComplete i1 = true
  · -- completion fires
    have hc2 : isComplete i2 = true := hceq.trans hc
    have hfire := uaComplete_eq_fire hg5 hc2
    set cl := (aget r5.1.completeCbs id).getD [] with hcl
    set s6 := runCompleteCbs id cl (emitEv (.completeRun id) r5.1) with hs6
    have hp6 : PPres r5.1 s6 :=
      ppres_trans (ppres_emitEv r5.1 (.completeRun id))
        (runCompleteCbs_ppres id cl (emitEv (.completeRun id) r5.1)
          ((ppres_emitEv r5.1 (.completeRun id)).wfc hwf5))
    have hev6 : s6.events = List.replicate cl.length (Ev.completeCb id)
        ++ (Ev.completeRun id :: r5.1.events) := by
      rw [hs6, runCompleteCbs_events]
      rfl
    obtain ⟨i3, hg6, hk6⟩ := hp6.inst_keep id i2 hg5
    have hc3 : isComplete i3 = true :=
      (isComplete_congr hk6.1 hk6.2.2.2.1).trans hc2
    have hpost : uaPost s6 id r5.2 = destroyMark s6 id :=
      uaPost_eq_destroy hg6 (by rw [hc3]; exact Bool.or_true r5.2)
    have hfin : uaCore s2 id = destroyMark s6 id := by
      rw [hcore, hfire, hpost]
    have hdead : isDestroyed (uaCore s2 id) id = true := by
      rw [hfin]
      exact isDestroyed_destroyMark_self hg6
    have hupres : UPres id s2 (uaCore s2 id) := by
      rw [hfin]
      exact upres_trans (hp3.toUPres id) (upres_trans hu4 (upres_trans (hp5.toUPres id)
        (upres_trans (hp6.toUPres id)
          ((ppres_destroyMark s6 id (hp6.wfc hwf5)).toUPres id))))
    refine ⟨hupres, List.replicate cl.length (Ev.completeCb id)
      ++ Ev.completeRun id :: List.replicate nfc.length (Ev.nextFrameCb id), ?_, ?_, ?_, ?_⟩
    · rw [hfin, destroyMark_events, hev6, hev5, hev4, hev3]
      simp
    · intro e he
      rcases List.mem_append.mp he with h1 | h2
      · rcases List.eq_of_mem_replicate h1 with rfl
        exact ⟨rfl, rfl⟩
      · rcases List.mem_cons.mp h2 with rfl | h3
        · exact ⟨rfl, rfl⟩
        · rcases List.eq_of_mem_replicate h3 with rfl
          exact ⟨rfl, rfl⟩
    · simp [evCount_append, evCount_replicate, evCount, hc]
    · intro _
      exact hdead
  · -- completion does not fire
    have hc2 : isComplete i2 = false := by
      rw [hceq]
      exact Bool.not_eq_true _ ▸ (by simpa using hc)
    have hskip := uaComplete_eq_skip hg5 hc2
    have hupres0 : UPres id s2 r5.1 :=
      upres_trans (hp3.toUPres id) (upres_trans hu4 (hp5.toUPres id))
    have hevr5 : r5.1.events
        = List.replicate nfc.length (Ev.nextFrameCb id) ++ s2.events := by
      rw [hev5, hev4, hev3]
    have hcnt : evCount (List.replicate nfc.length (Ev.nextFrameCb id)) (Ev.completeRun id)
        = (if isComplete i1 = true then 1 else 0) := by
      rw [evCount_replicate, if_neg (by simp), if_neg hc]
    cases hdone : r5.2 with
    | true =>
      have hpost : uaPost r5.1 id r5.2 = destroyMark r5.1 id :=
        uaPost_eq_destroy hg5 (by rw [hdone]; rfl)
      have hfin : uaCore s2 id = destroyMark r5.1 id := by
        rw [hcore, hskip, hpost]
      refine ⟨?_, List.replicate nfc.length (Ev.nextFrameCb id), ?_, ?_, ?_, fun hcc => absurd hcc hc⟩
      · rw [hfin]
        exact upres_trans hupres0 ((ppres_destroyMark r5.1 id hwf5).toUPres id)
      · rw [hfin, destroyMark_events, hevr5]
      · intro e he
        rcases List.eq_of_mem_replicate he with rfl
        exact ⟨rfl, rfl⟩
      · exact hcnt
    | false =>
      have hpost : uaPost r5.1 id r5.2 = r5.1 :=
        uaPost_eq_keep hg5 (by rw [hdone, hc2]; rfl)
      have hfin : uaCore s2 id = r5.1 := by
        rw [hcore, hskip, hpost]
      refine ⟨?_, List.replicate nfc.length (Ev.nextFrameCb id), ?_, ?_, ?_, fun hcc => absurd hcc hc⟩
      · rw [hfin]
        exact hupres0
      · rw [hfin, hevr5]
      · intro e he
        rcases List.eq_of_mem_replicate he with rfl
        exact ⟨rfl, rfl⟩
      · exact hcnt

theorem updateAnimation_spec (s : Sched) (id : Nat) (hwf : WFc s) :
    UPres id s (updateAnimation s id) ∧
    ∃ Δ, (updateAnimation s id).events = Δ ++ s.events ∧
      (∀ e ∈ Δ, evId e = id ∧ evIsDestroyKind e = false) ∧
      evCount Δ (Ev.completeRun id) ≤ 1 ∧
      (1 ≤ evCount Δ (Ev.completeRun id) → isDestroyed (updateAnimation s id) id = true) ∧
      (∀ i, getInst s id = some i →
        Ev.update id ∈ Δ ∧
        evCount Δ (Ev.completeRun id)
          = (if 0 ≤ i.time + s.deltaTime * i.timeScale
                ∧ completeAt (i.time + s.deltaTime * i.timeScale) i.duration = true
             then 1 else 0)) := by
  cases hg : getInst s id with
  | none =>
    have he : updateAnimation s id = s := by
      unfold updateAnimation
      rw [hg]
    rw [he]
    refine ⟨(ppres_refl s).toUPres id, [], by simp, by simp, by simp [evCount], ?_, ?_⟩
    · intro hc
      simp [evCount] at hc
    · intro i hgi
      cases hgi
  | some i =>
    set i1 : Inst := { i with timeOld := i.time, deltaTime := s.deltaTime * i.timeScale
                              time := i.time + s.deltaTime * i.timeScale } with hi1
    have he : updateAnimation s id =
        (if 0 ≤ i1.time then
          uaCore (setInst (emitEv (.update id) (setInst s id i1)) id
            { i1 with frame := i1.frame + 1 }) id
         else emitEv (.update id) (setInst s id i1)) := by
      unfold updateAnimation
      rw [hg]
    have hu1 : UPres id s (setInst s id i1) :=
      upres_setInst_x s id i i1 hg rfl
    have hu2 : UPres id (setInst s id i1) (emitEv (.update id) (setInst s id i1)) :=
      (ppres_emitEv _ (.update id)).toUPres id
    set sE := emitEv (.update id) (setInst s id i1) with hsE
    have hgE : getInst sE id = some i1 := getInst_setInst_self s id i1
    have hu3 : UPres id sE (setInst sE id { i1 with frame := i1.frame + 1 }) :=
      upres_setInst_x sE id i1 { i1 with frame := i1.frame + 1 } hgE rfl
    set s2 := setInst sE id { i1 with frame := i1.frame + 1 } with hs2
    have hwfE : WFc sE := by
      intro j hj
      exact (wfc_setInst_existing hwf hg (i := i1)) j hj
    have hwf2 : WFc s2 := hu3.uwfc hwfE
    have hg2 : getInst s2 id = some { i1 with frame := i1.frame + 1 } :=
      getInst_setInst_self sE id _
    have hev2 : s2.events = Ev.update id :: s.events := rfl
    by_cases ht : 0 ≤ i1.time
    · rw [he, if_pos ht]
      obtain ⟨hcoreU, Δc, hcev, hcown, hccnt, hcdead⟩ :=
        uaCore_spec s2 id { i1 with frame := i1.frame + 1 } hwf2 hg2
      have hcomp : isComplete { i1 with frame := i1.frame + 1 } = completeAt i1.time i1.duration := by
        rw [isComplete_eq_completeAt]
      refine ⟨upres_trans hu1 (upres_trans hu2 (upres_trans hu3 hcoreU)),
        Δc ++ [Ev.update id], ?_, ?_, ?_, ?_, ?_⟩
      · rw [hcev, hev2]
        simp
      · intro e hee
        rcases List.mem_append.mp hee with h1 | h2
        · exact hcown e h1
        · rcases List.mem_singleton.mp h2 with rfl
          exact ⟨rfl, rfl⟩
      · rw [evCount_append, hccnt]
        simp [evCount]
        split <;> simp
      · intro hc1
        rw [evCount_append] at hc1
        have : 1 ≤ evCount Δc (Ev.completeRun id) := by
          have : evCount [Ev.update id] (Ev.completeRun id) = 0 := by simp [evCount]
          omega
        rw [hccnt] at this
        have hcfire : isComplete { i1 with frame := i1.frame + 1 } = true := by
          by_cases hh : isComplete { i1 with frame := i1.frame + 1 } = true
          · exact hh
          · rw [if_neg hh] at this
            omega
        exact hcdead hcfire
      · intro i' hgi
        cases hgi
        refine ⟨List.mem_append_right _ (by simp), ?_⟩
        rw [evCount_append, hccnt]
        have hz : evCount [Ev.update id] (Ev.completeRun id) = 0 := by simp [evCount]
        rw [hz, hcomp]
        have hteq : i1.time = i.time + s.deltaTime * i.timeScale := rfl
        have hdureq : i1.duration = i.duration := rfl
        rw [hteq, hdureq]
        by_cases hcc : completeAt (i.time + s.deltaTime * i.timeScale) i.duration = true
        · rw [if_pos hcc, if_pos ⟨by rw [← hteq]; exact ht, hcc⟩]
        · rw [if_neg hcc, if_neg (fun hand => hcc hand.2)]
    · rw [he, if_neg ht]
      refine ⟨upres_trans hu1 hu2, [Ev.update id], by simp [hsE, emitEv, setInst], ?_, ?_, ?_, ?_⟩
      · intro e hee
        rcases List.mem_singleton.mp hee with rfl
        exact ⟨rfl, rfl⟩
      · simp [evCount]
      · intro hc1
        simp [evCount] at hc1
      · intro i' hgi
        cases hgi
        refine ⟨by simp, ?_⟩
        have hz : evCount [Ev.update id] (Ev.completeRun id) = 0 := by simp [evCount]
        rw [hz]
        have hnt : ¬(0 ≤ i.time + s.deltaTime * i.timeScale) := ht
        rw [if_neg (fun hand => hnt hand.1)]

/-! ### Preservation by one `destroyAnimation` step -/

structure DPres (x : Nat) (s s' : Sched) : Prop where
  count_le : s.count ≤ s'.count
  time_eq : s'.time = s.time
  timeOld_eq : s'.timeOld = s.timeOld
  dt_eq : s'.deltaTime = s.deltaTime
  gframe_eq : s'.gframe = s.gframe
  updating_eq : s'.updating = s.updating
  inst_keep : ∀ id i, getInst s id = some i →
    ∃ i', getInst s' id = some i' ∧ InstKeep i i'
  dom_new : ∀ id, (getInst s' id).isSome = true →
    (getInst s id).isSome = true ∨ (s.count ≤ id ∧ id < s'.count)
  dead_reg : ∀ id, id ≠ x → isDestroyed s id = true →
    aget s'.frameCbs id = aget s.frameCbs id ∧
    aget s'.nextFrameCbs id = aget s.nextFrameCbs id ∧
    aget s'.completeCbs id = aget s.completeCbs id ∧
    aget s'.destroyCbs id = aget s.destroyCbs id
  anim_erase : ∃ l, s'.animations = s.animations.erase x ++ l ∧ l.Nodup ∧
    ∀ y ∈ l, s.count ≤ y ∧ y < s'.count ∧ (getInst s' y).isSome = true
  new_ext : ∃ l, s'.newAnims = s.newAnims ++ l ∧ l.Nodup ∧
    ∀ y ∈ l, s.count ≤ y ∧ y < s'.count ∧ (getInst s' y).isSome = true
  dead_ext : ∃ l, s'.destroyedAnims = s.destroyedAnims ++ l ∧
    ∀ y ∈ l, y < s'.count ∧ isDestroyed s' y = true
  amapNd_keep : (s.amap.map Prod.fst).Nodup → (s'.amap.map Prod.fst).Nodup

theorem DPres.dget_mono {x : Nat} {s s' : Sched} (h : DPres x s s') {id : Nat}
    (hd : (getInst s id).isSome = true) : (getInst s' id).isSome = true := by
  cases hg : getInst s id with
  | none => rw [hg] at hd; exact absurd hd (by simp)
  | some i =>
    obtain ⟨i', hg', _⟩ := h.inst_keep id i hg
    simp [hg']

theorem DPres.des_mono {x : Nat} {s s' : Sched} (h : DPres x s s') {id : Nat}
    (hd : isDestroyed s id = true) : isDestroyed s' id = true := by
  unfold isDestroyed at hd ⊢
  cases hg : getInst s id with
  | none => rw [hg] at hd; exact absurd hd (by simp)
  | some i =>
    rw [hg] at hd
    obtain ⟨i', hg', hk⟩ := h.inst_keep id i hg
    rw [hg']
    exact hk.2.2.2.2.2.2.2 hd

theorem DPres.dwfc {x : Nat} {s s' : Sched} (h : DPres x s s') (hwf : WFc s) : WFc s' := by
  intro id hid
  rcases h.dom_new id hid with hold | ⟨_, hlt⟩
  · exact lt_of_lt_of_le (hwf id hold) h.count_le
  · exact hlt

theorem dpres_comp_ppres {x : Nat} {s1 s2 s3 : Sched} (h1 : DPres x s1 s2)
    (h2 : PPres s2 s3) : DPres x s1 s3 where
  count_le := le_trans h1.count_le h2.count_le
  time_eq := h2.time_eq.trans h1.time_eq
  timeOld_eq := h2.timeOld_eq.trans h1.timeOld_eq
  dt_eq := h2.dt_eq.trans h1.dt_eq
  gframe_eq := h2.gframe_eq.trans h1.gframe_eq
  updating_eq := h2.updating_eq.trans h1.updating_eq
  inst_keep := by
    intro id i hg
    obtain ⟨i', hg', hk⟩ := h1.inst_keep id i hg
    obtain ⟨i'', hg'', hk'⟩ := h2.inst_keep id i' hg'
    exact ⟨i'', hg'', instKeep_trans hk hk'⟩
  dom_new := by
    intro id hid
    rcases h2.dom_new id hid with hmid | ⟨hge, hlt⟩
    · rcases h1.dom_new id hmid with hold | ⟨hge1, hlt1⟩
      · exact Or.inl hold
      · exact Or.inr ⟨hge1, lt_of_lt_of_le hlt1 h2.count_le⟩
    · exact Or.inr ⟨le_trans h1.count_le hge, hlt⟩
  dead_reg := by
    intro id hne hd
    obtain ⟨a1, b1, c1, d1⟩ := h1.dead_reg id hne hd
    obtain ⟨a2, b2, c2, d2⟩ := h2.dead_reg id (h1.des_mono hd)
    exact ⟨a2.trans a1, b2.trans b1, c2.trans c1, d2.trans d1⟩
  anim_erase := by
    obtain ⟨l1, e1, n1, p1⟩ := h1.anim_erase
    obtain ⟨l2, e2, n2, p2⟩ := h2.anim_ext
    refine ⟨l1 ++ l2, by rw [e2, e1, List.append_assoc], ?_, ?_⟩
    · refine List.Nodup.append n1 n2 ?_
      intro y hy1 hy2
      have hb1 := (p1 y hy1).2.1
      have hb2 := (p2 y hy2).1
      omega
    · intro y hy
      rcases List.mem_append.mp hy with hy1 | hy2
      · obtain ⟨ha, hb, hc⟩ := p1 y hy1
        exact ⟨ha, lt_of_lt_of_le hb h2.count_le, h2.dom_mono hc⟩
      · obtain ⟨ha, hb, hc⟩ := p2 y hy2
        exact ⟨le_trans h1.count_le ha, hb, hc⟩
  new_ext := by
    obtain ⟨l1, e1, n1, p1⟩ := h1.new_ext
    obtain ⟨l2, e2, n2, p2⟩ := h2.new_ext
    refine ⟨l1 ++ l2, by rw [e2, e1, List.append_assoc], ?_, ?_⟩
    · refine List.Nodup.append n1 n2 ?_
      intro y hy1 hy2
      have hb1 := (p1 y hy1).2.1
      have hb2 := (p2 y hy2).1
      omega
    · intro y hy
      rcases List.mem_append.mp hy with hy1 | hy2
      · obtain ⟨ha, hb, hc⟩ := p1 y hy1
        exact ⟨ha, lt_of_lt_of_le hb h2.count_le, h2.dom_mono hc⟩
      · obtain ⟨ha, hb, hc⟩ := p2 y hy2
        exact ⟨le_trans h1.count_le ha, hb, hc⟩
  dead_ext := by
    obtain ⟨l1, e1, p1⟩ := h1.dead_ext
    obtain ⟨l2, e2, p2⟩ := h2.dead_ext
    refine ⟨l1 ++ l2, by rw [e2, e1, List.append_assoc], ?_⟩
    intro y hy
    rcases List.mem_append.mp hy with hy1 | hy2
    · exact ⟨lt_of_lt_of_le (p1 y hy1).1 h2.count_le, h2.dflag_mono (p1 y hy1).2⟩
    · exact p2 y hy2
  amapNd_keep := fun h => h2.amapNd_keep (h1.amapNd_keep h)

theorem destroyAnimation_spec (s : Sched) (id : Nat) (hwf : WFc s)
    (hdead : isDestroyed s id = true) :
    DPres id s (destroyAnimation s id) ∧
    (∃ Δ, (destroyAnimation s id).events = Δ ++ s.events ∧
      (∀ e ∈ Δ, evId e = id ∧ evIsDestroyKind e = true) ∧
      evCount Δ (Ev.destroyRun id)
        = (if aget s.destroyCbs id = none then 0 else 1)) ∧
    aget (destroyAnimation s id).frameCbs id = none ∧
    aget (destroyAnimation s id).nextFrameCbs id = none ∧
    aget (destroyAnimation s id).destroyCbs id = none ∧
    aget (destroyAnimation s id).completeCbs id = aget s.completeCbs id := by
  set s1 : Sched := { s with animations := s.animations.erase id
                             frameCbs := adel s.frameCbs id
                             nextFrameCbs := adel s.nextFrameCbs id } with hs1
  have hd1 : DPres id s s1 := by
    constructor
    · exact le_refl _
    · rfl
    · rfl
    · rfl
    · rfl
    · rfl
    · exact fun _ i h => ⟨i, h, instKeep_refl i⟩
    · exact fun _ h => Or.inl h
    · intro j hne _
      exact ⟨aget_adel_ne s.frameCbs id j hne, aget_adel_ne s.nextFrameCbs id j hne, rfl, rfl⟩
    · exact ⟨[], by simp, List.nodup_nil, by simp⟩
    · exact ⟨[], by simp, List.nodup_nil, by simp⟩
    · exact ⟨[], by simp, by simp⟩
    · exact fun h => h
  have hdead1 : isDestroyed s1 id = true := hdead
  have hwf1 : WFc s1 := fun j hj => hwf j hj
  cases hcb : aget s.destroyCbs id with
  | none =>
    have hfin : destroyAnimation s id = s1 := by
      unfold destroyAnimation
      show (match aget s1.destroyCbs id with
        | none => s1
        | some l => runDestroyCbs id l (emitEv (.destroyRun id) { s1 with destroyCbs := adel s1.destroyCbs id })) = s1
      have : aget s1.destroyCbs id = none := hcb
      rw [this]
    rw [hfin]
    refine ⟨hd1, ⟨[], by simp, by simp, by simp [evCount]⟩, ?_, ?_, ?_, ?_⟩
    · exact aget_adel_self s.frameCbs id
    · exact aget_adel_self s.nextFrameCbs id
    · exact hcb
    · rfl
  | some l =>
    set s2 : Sched := { s1 with destroyCbs := adel s1.destroyCbs id } with hs2
    have hfin : destroyAnimation s id = runDestroyCbs id l (emitEv (.destroyRun id) s2) := by
      unfold destroyAnimation
      show (match aget s1.destroyCbs id with
        | none => s1
        | some l => runDestroyCbs id l (emitEv (.destroyRun id) { s1 with destroyCbs := adel s1.destroyCbs id })) = _
      have : aget s1.destroyCbs id = some l := hcb
      rw [this]
    have hd2 : DPres id s s2 := by
      refine { hd1 with dead_reg := ?_ }
      intro j hne hd
      refine ⟨aget_adel_ne s.frameCbs id j hne, aget_adel_ne s.nextFrameCbs id j hne, rfl, ?_⟩
      show aget (adel s1.destroyCbs id) j = aget s.destroyCbs j
      exact aget_adel_ne s1.destroyCbs id j hne
    have hdead2 : isDestroyed s2 id = true := hdead
    have hwf2 : WFc s2 := fun j hj => hwf j hj
    have hpe : PPres s2 (emitEv (.destroyRun id) s2) := ppres_emitEv s2 (.destroyRun id)
    have hpr : PPres (emitEv (.destroyRun id) s2) (runDestroyCbs id l (emitEv (.destroyRun id) s2)) :=
      runDestroyCbs_ppres id l (emitEv (.destroyRun id) s2) (hpe.wfc hwf2)
    have hdall : DPres id s (runDestroyCbs id l (emitEv (.destroyRun id) s2)) :=
      dpres_comp_ppres (dpres_comp_ppres hd2 hpe) hpr
    have hevfin : (runDestroyCbs id l (emitEv (.destroyRun id) s2)).events
        = List.replicate l.length (Ev.destroyCb id) ++ (Ev.destroyRun id :: s.events) := by
      rw [runDestroyCbs_events]
      rfl
    have hregs := hpr.dead_reg id (hpe.dflag_mono hdead2)
    have hregs0 := hpe.dead_reg id hdead2
    rw [hfin]
    refine ⟨hdall, ⟨List.replicate l.length (Ev.destroyCb id) ++ [Ev.destroyRun id], ?_, ?_, ?_⟩,
      ?_, ?_, ?_, ?_⟩
    · rw [hevfin]
      simp
    · intro e he
      rcases List.mem_append.mp he with h1 | h2
      · rcases List.eq_of_mem_replicate h1 with rfl
        exact ⟨rfl, rfl⟩
      · rcases List.mem_singleton.mp h2 with rfl
        exact ⟨rfl, rfl⟩
    · simp [evCount_append, evCount_replicate, evCount]
    · rw [hregs.1, hregs0.1]
      exact aget_adel_self s.frameCbs id
    · rw [hregs.2.1, hregs0.2.1]
      exact aget_adel_self s.nextFrameCbs id
    · rw [hregs.2.2.2, hregs0.2.2.2]
      exact aget_adel_self s1.destroyCbs id
    · rw [hregs.2.2.1, hregs0.2.2.1]

/-! ### The global invariant -/

/-- Invariant of every reachable scheduler state.  The counting clauses
say: the destroy-callback batch and the completion-callback batch of any
instance each run at most once over the whole history, a destroy batch
leaves the instance flagged with an empty destroy registry, and a
completion batch leaves the instance flagged. -/
structure Inv (s : Sched) : Prop where
  wfc : WFc s
  animLt : ∀ id ∈ s.animations, id < s.count
  newLt : ∀ id ∈ s.newAnims, id < s.count
  animNd : s.animations.Nodup
  newNd : s.newAnims.Nodup
  animMem : ∀ id ∈ s.animations, (getInst s id).isSome = true
  newMem : ∀ id ∈ s.newAnims, (getInst s id).isSome = true
  w3 : ∀ id ∈ s.destroyedAnims, isDestroyed s id = true
  deadLt : ∀ id ∈ s.destroyedAnims, id < s.count
  amapNd : (s.amap.map Prod.fst).Nodup
  dOnce : ∀ id, evCount s.events (Ev.destroyRun id) ≤ 1
  dDone : ∀ id, 1 ≤ evCount s.events (Ev.destroyRun id) →
    isDestroyed s id = true ∧ aget s.destroyCbs id = none
  cOnce : ∀ id, evCount s.events (Ev.completeRun id) ≤ 1
  cDone : ∀ id, 1 ≤ evCount s.events (Ev.completeRun id) → isDestroyed s id = true

theorem inv_ppres {s s' : Sched} (hI : Inv s) (h : PPres s s')
    (hev : s'.events = s.events) : Inv s' := by
  obtain ⟨la, hla, hlaN, hlaP⟩ := h.anim_ext
  obtain ⟨ln, hln, hlnN, hlnP⟩ := h.new_ext
  obtain ⟨ld, hld, hldP⟩ := h.dead_ext
  constructor
  · exact h.wfc hI.wfc
  · intro id hid
    rw [hla] at hid
    rcases List.mem_append.mp hid with h1 | h2
    · exact lt_of_lt_of_le (hI.animLt id h1) h.count_le
    · exact (hlaP id h2).2.1
  · intro id hid
    rw [hln] at hid
    rcases List.mem_append.mp hid with h1 | h2
    · exact lt_of_lt_of_le (hI.newLt id h1) h.count_le
    · exact (hlnP id h2).2.1
  · rw [hla]
    refine List.Nodup.append hI.animNd hlaN ?_
    intro y hy1 hy2
    have := hI.animLt y hy1
    have := (hlaP y hy2).1
    omega
  · rw [hln]
    refine List.Nodup.append hI.newNd hlnN ?_
    intro y hy1 hy2
    have := hI.newLt y hy1
    have := (hlnP y hy2).1
    omega
  · intro id hid
    rw [hla] at hid
    rcases List.mem_append.mp hid with h1 | h2
    · exact h.dom_mono (hI.animMem id h1)
    · exact (hlaP id h2).2.2
  · intro id hid
    rw [hln] at hid
    rcases List.mem_append.mp hid with h1 | h2
    · exact h.dom_mono (hI.newMem id h1)
    · exact (hlnP id h2).2.2
  · intro id hid
    rw [hld] at hid
    rcases List.mem_append.mp hid with h1 | h2
    · exact h.dflag_mono (hI.w3 id h1)
    · exact (hldP id h2).2
  · intro id hid
    rw [hld] at hid
    rcases List.mem_append.mp hid with h1 | h2
    · exact lt_of_lt_of_le (hI.deadLt id h1) h.count_le
    · exact (hldP id h2).1
  · exact h.amapNd_keep hI.amapNd
  · intro id
    rw [hev]
    exact hI.dOnce id
  · intro id hc
    rw [hev] at hc
    obtain ⟨hd, hreg⟩ := hI.dDone id hc
    exact ⟨h.dflag_mono hd, ((h.dead_reg id hd).2.2.2).trans hreg⟩
  · intro id
    rw [hev]
    exact hI.cOnce id
  · intro id hc
    rw [hev] at hc
    exact h.dflag_mono (hI.cDone id hc)

theorem inv_runProg (p : Prog) (self : Nat) {s : Sched} (hI : Inv s) :
    Inv (runProg p self s).1 :=
  inv_ppres hI (runProg_ppres p self s hI.wfc) (runProg_events p self s)

theorem evCount_destroyRun_zero {Δ : List Ev} {j : Nat}
    (hown : ∀ e ∈ Δ, evIsDestroyKind e = false) :
    evCount Δ (Ev.destroyRun j) = 0 := by
  refine evCount_eq_zero_of_not_mem ?_
  intro hmem
  have := hown _ hmem
  simp [evIsDestroyKind] at this

theorem evCount_other_owner_zero {Δ : List Ev} {x j : Nat} (hne : j ≠ x)
    (hown : ∀ e ∈ Δ, evId e = x) (e0 : Ev) (he0 : evId e0 = j) :
    evCount Δ e0 = 0 := by
  refine evCount_eq_zero_of_not_mem ?_
  intro hmem
  exact hne (he0 ▸ hown _ hmem)

theorem inv_updateAnimation {s : Sched} (id : Nat) (hI : Inv s)
    (hdf : isDestroyed s id = false) : Inv (updateAnimation s id) := by
  obtain ⟨hU, Δ, hev, hown, hcnt1, hcdead, _⟩ := updateAnimation_spec s id hI.wfc
  obtain ⟨la, hla, hlaN, hlaP⟩ := hU.anim_ext
  obtain ⟨ln, hln, hlnN, hlnP⟩ := hU.new_ext
  obtain ⟨ld, hld, hldP⟩ := hU.dead_ext
  have hcntD : ∀ j, evCount (updateAnimation s id).events (Ev.destroyRun j)
      = evCount s.events (Ev.destroyRun j) := by
    intro j
    rw [hev, evCount_append, evCount_destroyRun_zero (fun e he => (hown e he).2)]
    omega
  have hcntCne : ∀ j, j ≠ id → evCount (updateAnimation s id).events (Ev.completeRun j)
      = evCount s.events (Ev.completeRun j) := by
    intro j hne
    rw [hev, evCount_append,
      evCount_other_owner_zero hne (fun e he => (hown e he).1) (Ev.completeRun j) rfl]
    omega
  constructor
  · exact hU.uwfc hI.wfc
  · intro j hj
    rw [hla] at hj
    rcases List.mem_append.mp hj with h1 | h2
    · exact lt_of_lt_of_le (hI.animLt j h1) hU.count_le
    · exact (hlaP j h2).2.1
  · intro j hj
    rw [hln] at hj
    rcases List.mem_append.mp hj with h1 | h2
    · exact lt_of_lt_of_le (hI.newLt j h1) hU.count_le
    · exact (hlnP j h2).2.1
  · rw [hla]
    refine List.Nodup.append hI.animNd hlaN ?_
    intro y hy1 hy2
    have := hI.animLt y hy1
    have := (hlaP y hy2).1
    omega
  · rw [hln]
    refine List.Nodup.append hI.newNd hlnN ?_
    intro y hy1 hy2
    have := hI.newLt y hy1
    have := (hlnP y hy2).1
    omega
  · intro j hj
    rw [hla] at hj
    rcases List.mem_append.mp hj with h1 | h2
    · exact hU.dom_mono j (hI.animMem j h1)
    · exact (hlaP j h2).2.2
  · intro j hj
    rw [hln] at hj
    rcases List.mem_append.mp hj with h1 | h2
    · exact hU.dom_mono j (hI.newMem j h1)
    · exact (hlnP j h2).2.2
  · intro j hj
    rw [hld] at hj
    rcases List.mem_append.mp hj with h1 | h2
    · exact hU.des_mono j (hI.w3 j h1)
    · exact (hldP j h2).2
  · intro j hj
    rw [hld] at hj
    rcases List.mem_append.mp hj with h1 | h2
    · exact lt_of_lt_of_le (hI.deadLt j h1) hU.count_le
    · exact (hldP j h2).1
  · exact hU.amapNd_keep hI.amapNd
  · intro j
    rw [hcntD j]
    exact hI.dOnce j
  · intro j hc
    rw [hcntD j] at hc
    obtain ⟨hd, hreg⟩ := hI.dDone j hc
    have hne : j ≠ id := by
      intro hh
      rw [hh] at hd
      rw [hd] at hdf
      cases hdf
    exact ⟨hU.des_mono j hd, ((hU.dead_reg j hne hd).2.2.2).trans hreg⟩
  · intro j
    by_cases hne : j = id
    · subst hne
      have hzero : evCount s.events (Ev.completeRun j) = 0 := by
        by_cases hz : 1 ≤ evCount s.events (Ev.completeRun j)
        · have := hI.cDone j hz
          rw [this] at hdf
          cases hdf
        · omega
      rw [hev, evCount_append, hzero]
      omega
    · rw [hcntCne j hne]
      exact hI.cOnce j
  · intro j hc
    by_cases hne : j = id
    · subst hne
      have hzero : evCount s.events (Ev.completeRun j) = 0 := by
        by_cases hz : 1 ≤ evCount s.events (Ev.completeRun j)
        · have := hI.cDone j hz
          rw [this] at hdf
          cases hdf
        · omega
      rw [hev, evCount_append, hzero] at hc
      exact hcdead (by omega)
    · rw [hcntCne j hne] at hc
      exact hU.des_mono j (hI.cDone j hc)

theorem inv_destroyAnimation {s : Sched} (id : Nat) (hI : Inv s)
    (hdead : isDestroyed s id = true) : Inv (destroyAnimation s id) := by
  obtain ⟨hD, ⟨Δ, hev, hown, hcnt⟩, hfc, hnfc, hdc, hcc⟩ :=
    destroyAnimation_spec s id hI.wfc hdead
  obtain ⟨la, hla, hlaN, hlaP⟩ := hD.anim_erase
  obtain ⟨ln, hln, hlnN, hlnP⟩ := hD.new_ext
  obtain ⟨ld, hld, hldP⟩ := hD.dead_ext
  have hcntDne : ∀ j, j ≠ id → evCount (destroyAnimation s id).events (Ev.destroyRun j)
      = evCount s.events (Ev.destroyRun j) := by
    intro j hne
    rw [hev, evCount_append,
      evCount_other_owner_zero hne (fun e he => (hown e he).1) (Ev.destroyRun j) rfl]
    omega
  have hcntC : ∀ j, evCount (destroyAnimation s id).events (Ev.completeRun j)
      = evCount s.events (Ev.completeRun j) := by
    intro j
    rw [hev, evCount_append]
    have : evCount Δ (Ev.completeRun j) = 0 := by
      refine evCount_eq_zero_of_not_mem ?_
      intro hmem
      have := (hown _ hmem).2
      simp [evIsDestroyKind] at this
    omega
  constructor
  · exact hD.dwfc hI.wfc
  · intro j hj
    rw [hla] at hj
    rcases List.mem_append.mp hj with h1 | h2
    · exact lt_of_lt_of_le (hI.animLt j (List.mem_of_mem_erase h1)) hD.count_le
    · exact (hlaP j h2).2.1
  · intro j hj
    rw [hln] at hj
    rcases List.mem_append.mp hj with h1 | h2
    · exact lt_of_lt_of_le (hI.newLt j h1) hD.count_le
    · exact (hlnP j h2).2.1
  · rw [hla]
    refine List.Nodup.append (hI.animNd.erase id) hlaN ?_
    intro y hy1 hy2
    have := hI.animLt y (List.mem_of_mem_erase hy1)
    have := (hlaP y hy2).1
    omega
  · rw [hln]
    refine List.Nodup.append hI.newNd hlnN ?_
    intro y hy1 hy2
    have := hI.newLt y hy1
    have := (hlnP y hy2).1
    omega
  · intro j hj
    rw [hla] at hj
    rcases List.mem_append.mp hj with h1 | h2
    · exact hD.dget_mono (hI.animMem j (List.mem_of_mem_erase h1))
    · exact (hlaP j h2).2.2
  · intro j hj
    rw [hln] at hj
    rcases List.mem_append.mp hj with h1 | h2
    · exact hD.dget_mono (hI.newMem j h1)
    · exact (hlnP j h2).2.2
  · intro j hj
    rw [hld] at hj
    rcases List.mem_append.mp hj with h1 | h2
    · exact hD.des_mono (hI.w3 j h1)
    · exact (hldP j h2).2
  · intro j hj
    rw [hld] at hj
    rcases List.mem_append.mp hj with h1 | h2
    · exact lt_of_lt_of_le (hI.deadLt j h1) hD.count_le
    · exact (hldP j h2).1
  · exact hD.amapNd_keep hI.amapNd
  · intro j
    by_cases hne : j = id
    · subst hne
      by_cases hz : 1 ≤ evCount s.events (Ev.destroyRun j)
      · obtain ⟨_, hreg⟩ := hI.dDone j hz
        rw [hev, evCount_append, hcnt, if_pos hreg]
        have := hI.dOnce j
        omega
      · rw [hev, evCount_append, hcnt]
        have : evCount s.events (Ev.destroyRun j) = 0 := by omega
        rw [this]
        split <;> omega
    · rw [hcntDne j hne]
      exact hI.dOnce j
  · intro j hc
    by_cases hne : j = id
    · subst hne
      exact ⟨hD.des_mono hdead, hdc⟩
    · rw [hcntDne j hne] at hc
      obtain ⟨hd, hreg⟩ := hI.dDone j hc
      exact ⟨hD.des_mono hd, ((hD.dead_reg j hne hd).2.2.2).trans hreg⟩
  · intro j
    rw [hcntC j]
    exact hI.cOnce j
  · intro j hc
    rw [hcntC j] at hc
    exact hD.des_mono (hI.cDone j hc)

theorem mem_foldl_addUniq (l : List Nat) : ∀ (a : List Nat) (x : Nat),
    x ∈ l.foldl addUniq a ↔ x ∈ a ∨ x ∈ l := by
  induction l with
  | nil => simp
  | cons y t ih =>
    intro a x
    show x ∈ t.foldl addUniq (addUniq a y) ↔ _
    rw [ih]
    rw [mem_addUniq]
    constructor
    · rintro ((h | rfl) | h)
      · exact Or.inl h
      · exact Or.inr (by simp)
      · exact Or.inr (List.mem_cons_of_mem y h)
    · rintro (h | h)
      · exact Or.inl (Or.inl h)
      · rcases List.mem_cons.mp h with rfl | h2
        · exact Or.inl (Or.inr rfl)
        · exact Or.inr h2

theorem nodup_foldl_addUniq (l : List Nat) : ∀ (a : List Nat), a.Nodup →
    (l.foldl addUniq a).Nodup := by
  induction l with
  | nil => exact fun a h => h
  | cons y t ih =>
    intro a ha
    exact ih (addUniq a y) (nodup_addUniq a y ha)

theorem inv_updatePassGo (l : List Nat) : ∀ {s : Sched}, Inv s → Inv (updatePassGo l s) := by
  induction l with
  | nil => exact fun h => h
  | cons id t ih =>
    intro s hI
    show Inv (updatePassGo t _)
    refine ih ?_
    cases hg : getInst s id with
    | none =>
      simpa [hg] using hI
    | some i =>
      by_cases hcond : i.destroyed = false ∧ i.paused = false
      · have hdf : isDestroyed s id = false := by
          rw [isDestroyed_eq_of_getInst hg]
          exact hcond.1
        simpa [hg, hcond] using inv_updateAnimation id hI hdf
      · simpa [hg, hcond] using hI

theorem inv_destroyPhase (fuel : Nat) : ∀ (k : Nat) {s : Sched}, Inv s →
    Inv (destroyPhase fuel k s) := by
  induction fuel with
  | zero =>
    intro k s hI
    exact hI
  | succ f ih =>
    intro k s hI
    show Inv (match (s.destroyedAnims.drop k).head? with
      | none => s
      | some id => destroyPhase f (k + 1) (destroyAnimation s id))
    cases hh : (s.destroyedAnims.drop k).head? with
    | none => exact hI
    | some id =>
      have hmem : id ∈ s.destroyedAnims := by
        have h1 : id ∈ s.destroyedAnims.drop k := by
          cases hd : s.destroyedAnims.drop k with
          | nil => rw [hd] at hh; cases hh
          | cons a t =>
            rw [hd] at hh
            simp only [List.head?_cons, Option.some.injEq] at hh
            rw [← hh]
            exact List.mem_cons_self a t
        exact (List.drop_sublist k s.destroyedAnims).subset h1
      exact ih (k + 1) (inv_destroyAnimation id hI (hI.w3 id hmem))

theorem inv_clearDead {s : Sched} (hI : Inv s) : Inv { s with destroyedAnims := [] } where
  wfc := hI.wfc
  animLt := hI.animLt
  newLt := hI.newLt
  animNd := hI.animNd
  newNd := hI.newNd
  animMem := hI.animMem
  newMem := hI.newMem
  w3 := by simp
  deadLt := by simp
  amapNd := hI.amapNd
  dOnce := hI.dOnce
  dDone := hI.dDone
  cOnce := hI.cOnce
  cDone := hI.cDone

theorem inv_mergeNew {s : Sched} (hI : Inv s) : Inv (mergeNew s) where
  wfc := hI.wfc
  animLt := by
    intro id hid
    rcases (mem_foldl_addUniq s.newAnims s.animations id).mp hid with h | h
    · exact hI.animLt id h
    · exact hI.newLt id h
  newLt := hI.newLt
  animNd := nodup_foldl_addUniq s.newAnims s.animations hI.animNd
  newNd := hI.newNd
  animMem := by
    intro id hid
    rcases (mem_foldl_addUniq s.newAnims s.animations id).mp hid with h | h
    · exact hI.animMem id h
    · exact hI.newMem id h
  newMem := hI.newMem
  w3 := hI.w3
  deadLt := hI.deadLt
  amapNd := hI.amapNd
  dOnce := hI.dOnce
  dDone := hI.dDone
  cOnce := hI.cOnce
  cDone := hI.cDone

theorem inv_setUpdating (b : Bool) {s : Sched} (hI : Inv s) :
    Inv { s with updating := b } where
  wfc := hI.wfc
  animLt := hI.animLt
  newLt := hI.newLt
  animNd := hI.animNd
  newNd := hI.newNd
  animMem := hI.animMem
  newMem := hI.newMem
  w3 := hI.w3
  deadLt := hI.deadLt
  amapNd := hI.amapNd
  dOnce := hI.dOnce
  dDone := hI.dDone
  cOnce := hI.cOnce
  cDone := hI.cDone

theorem inv_advClock (d : Rat) {s : Sched} (hI : Inv s) : Inv (advClock d s) where
  wfc := hI.wfc
  animLt := hI.animLt
  newLt := hI.newLt
  animNd := hI.animNd
  newNd := hI.newNd
  animMem := hI.animMem
  newMem := hI.newMem
  w3 := hI.w3
  deadLt := hI.deadLt
  amapNd := hI.amapNd
  dOnce := hI.dOnce
  dDone := hI.dDone
  cOnce := hI.cOnce
  cDone := hI.cDone

theorem inv_updateAnimations (fuel : Nat) {s : Sched} (hI : Inv s) :
    Inv (updateAnimations fuel s) := by
  unfold updateAnimations
  exact inv_setUpdating false
    (inv_mergeNew (inv_clearDead (inv_destroyPhase fuel 0
      (inv_updatePassGo s.animations (inv_setUpdating true hI)))))

theorem inv_tick (fuel : Nat) (d : Rat) {s : Sched} (hI : Inv s) : Inv (tick fuel d s) :=
  inv_updateAnimations fuel (inv_advClock d hI)

theorem inv_runStep {s : Sched} (hI : Inv s) (st : Step) : Inv (runStep s st) := by
  cases st with
  | tick fuel d => exact inv_tick fuel d hI
  | ext p => exact inv_runProg p s.count hI

theorem inv_runScript (steps : List Step) : ∀ {s : Sched}, Inv s →
    Inv (runScript steps s) := by
  induction steps with
  | nil => exact fun h => h
  | cons st t ih =>
    intro s hI
    exact ih (inv_runStep hI st)

theorem inv_init : Inv Sched.init where
  wfc := by intro id h; simp [getInst, Sched.init, aget] at h
  animLt := by simp [Sched.init]
  newLt := by simp [Sched.init]
  animNd := List.nodup_nil
  newNd := List.nodup_nil
  animMem := by simp [Sched.init]
  newMem := by simp [Sched.init]
  w3 := by simp [Sched.init]
  deadLt := by simp [Sched.init]
  amapNd := by simp [Sched.init]
  dOnce := by intro id; simp [Sched.init, evCount]
  dDone := by intro id h; simp [Sched.init, evCount] at h
  cOnce := by intro id; simp [Sched.init, evCount]
  cDone := by intro id h; simp [Sched.init, evCount] at h

/-- Every state reachable by a driver script from the initial module state
satisfies the invariant. -/
theorem inv_reach (steps : List Step) : Inv (runScript steps Sched.init) :=
  inv_runScript steps inv_init

/-! ### Helper facts for the exclusivity registry -/

theorem destroyMark_amap (s : Sched) (j : Nat) : (destroyMark s j).amap = s.amap := by
  unfold destroyMark
  cases getInst s j with
  | none => rfl
  | some i => by_cases hd : i.destroyed = true <;> simp [hd]

theorem addDestroyCb_amap (s : Sched) (i : Nat) (p : Prog) :
    (addDestroyCb s i p).amap = s.amap := by
  unfold addDestroyCb
  cases getInst s i with
  | none => rfl
  | some a => by_cases hd : a.destroyed = true <;> simp [hd]

theorem isDestroyed_addDestroyCb (s : Sched) (i : Nat) (p : Prog) (j : Nat) :
    isDestroyed (addDestroyCb s i p) j = isDestroyed s j := by
  unfold addDestroyCb
  cases getInst s i with
  | none => rfl
  | some a =>
    show isDestroyed
      (if a.destroyed = true then s else { s with destroyCbs := pushCb s.destroyCbs i p }) j
      = isDestroyed s j
    by_cases hd : a.destroyed = true
    · rw [if_pos hd]
    · rw [if_neg hd]
      unfold isDestroyed getInst
      rfl

/-- Number of entries of a JS `Map` model under a given key. -/
def keyCount (m : List (Nat × Nat)) (t : Nat) : Nat :=
  (m.filter (fun kv => kv.1 = t)).length

theorem keyCount_eq_zero_of_not_key (m : List (Nat × Nat)) (t : Nat)
    (h : t ∉ m.map Prod.fst) : keyCount m t = 0 := by
  induction m with
  | nil => rfl
  | cons kv r ih =>
    simp only [List.map_cons, List.mem_cons, not_or] at h
    have : ¬(kv.1 = t) := fun hh => h.1 hh.symm
    simp only [keyCount, List.filter_cons] at ih ⊢
    simpa [this] using ih h.2

theorem keyCount_aset_one (m : List (Nat × Nat)) (t v : Nat)
    (hnd : (m.map Prod.fst).Nodup) : keyCount (aset m t v) t = 1 := by
  induction m with
  | nil => simp [aset, keyCount]
  | cons kv r ih =>
    obtain ⟨k0, v0⟩ := kv
    simp only [List.map_cons, List.nodup_cons] at hnd
    by_cases h0 : k0 = t
    · subst h0
      simp only [aset, if_pos rfl, keyCount, List.filter_cons]
      have hz : keyCount r k0 = 0 := keyCount_eq_zero_of_not_key r k0 hnd.1
      simpa [keyCount] using hz
    · simp only [aset, if_neg h0, keyCount, List.filter_cons]
      have := ih hnd.2
      simpa [h0, keyCount] using this

/-! ### Claim theorems resting on the invariant -/

/-- Claim C8: `destroy()` is idempotent.  First conjunct: in every run of
the scheduler the destroy-callback batch of any instance executes at most
once, no matter how many times and when `destroy()` is called.  Second
conjunct: in a concrete run where `destroy()` is called three times on
the same live instance (twice before the applying tick, once after), the
registered destroy callback runs exactly once. -/
theorem c8_destroy_idempotent :
    (∀ (steps : List Step) (id : Nat),
      evCount (runScript steps Sched.init).events (Ev.destroyRun id) ≤ 1) ∧
    (let s := runScript
        [.ext .newLoop, .ext (.onDestroyId 0 .skip), .ext (.destroyId 0), .ext (.destroyId 0),
         .tick 4 1, .ext (.destroyId 0), .tick 4 1] Sched.init
     evCount s.events (Ev.destroyRun 0) = 1 ∧ evCount s.events (Ev.destroyCb 0) = 1 ∧
     isDestroyed s 0 = true) := by
  constructor
  · intro steps id
    exact (inv_reach steps).dOnce id
  · with_unfolding_all decide

/-- Claim C2, amended: completion callbacks of an instance run at most
once over any run, and the instance is destroyed from the moment they
run; moreover one `updateAnimation` step fires the completion batch
exactly when the instance advances to `time >= 0` with `complete` true
(which, for a positive duration and nonnegative delay, is the tick in
which `complete` first becomes true), and it marks the instance destroyed
in that same step. -/
theorem c2_amended :
    (∀ (steps : List Step) (id : Nat),
      evCount (runScript steps Sched.init).events (Ev.completeRun id) ≤ 1 ∧
      (1 ≤ evCount (runScript steps Sched.init).events (Ev.completeRun id) →
        isDestroyed (runScript steps Sched.init) id = true)) ∧
    (∀ (s : Sched) (id : Nat) (i : Inst), WFc s →
      getInst s id = some i →
      ((0 ≤ i.time + s.deltaTime * i.timeScale ∧
          completeAt (i.time + s.deltaTime * i.timeScale) i.duration = true) →
        evCount (updateAnimation s id).events (Ev.completeRun id)
          = evCount s.events (Ev.completeRun id) + 1 ∧
        isDestroyed (updateAnimation s id) id = true) ∧
      (¬(0 ≤ i.time + s.deltaTime * i.timeScale ∧
          completeAt (i.time + s.deltaTime * i.timeScale) i.duration = true) →
        evCount (updateAnimation s id).events (Ev.completeRun id)
          = evCount s.events (Ev.completeRun id))) := by
  constructor
  · intro steps id
    exact ⟨(inv_reach steps).cOnce id, fun h => (inv_reach steps).cDone id h⟩
  · intro s id i hwf hg
    obtain ⟨hU, Δ, hev, hown, hcnt1, hcdead, hfire⟩ := updateAnimation_spec s id hwf
    obtain ⟨hupd, hcnt⟩ := hfire i hg
    constructor
    · intro hc
      have h1 : evCount Δ (Ev.completeRun id) = 1 := by rw [hcnt]; exact if_pos hc
      refine ⟨?_, hcdead (by simp [h1])⟩
      rw [hev, evCount_append, h1]
      omega
    · intro hc
      have h0 : evCount Δ (Ev.completeRun id) = 0 := by rw [hcnt]; exact if_neg hc
      rw [hev, evCount_append, h0]
      omega

/-- Witness for `c2_amended`: the instance of `during({duration: 1})`
advanced by a one-second tick completes and is destroyed in that step. -/
theorem c2_amended_witness :
    evCount (updateAnimation (advClock 1 (runScript [.ext (.newDuring 1 0)] Sched.init)) 0).events
        (Ev.completeRun 0)
      = evCount (advClock 1 (runScript [.ext (.newDuring 1 0)] Sched.init)).events
          (Ev.completeRun 0) + 1 ∧
    isDestroyed (updateAnimation (advClock 1 (runScript [.ext (.newDuring 1 0)] Sched.init)) 0) 0
      = true := by
  have hI : Inv (advClock 1 (runScript [.ext (.newDuring 1 0)] Sched.init)) :=
    inv_advClock 1 (inv_reach [.ext (.newDuring 1 0)])
  refine (c2_amended.2 (advClock 1 (runScript [.ext (.newDuring 1 0)] Sched.init)) 0
    { startTime := 0, startFrame := 0, timeScale := 1, paused := false, time := 0, timeOld := 0
      deltaTime := 0, duration := some 1, destroyed := false, frame := 0 }
    hI.wfc (by with_unfolding_all decide)).1 ?_
  constructor
  · show (0 : Rat) ≤ 0 + 1 * 1
    norm_num
  · show completeAt (0 + 1 * 1) (some 1) = true
    unfold completeAt
    norm_num

/-- Claim C6: replacing a target's exclusive entry.  (i) `set(t, b)` on a
state where `a` occupies `t` leaves exactly one entry for `t`, pointing
to `b`, and marks `a` destroyed; (ii) in every run any instance's destroy
batch (hence its `onDestroy` callbacks) runs at most once; (iii) in a
concrete replacement run the old occupant's destroy callback runs exactly
once (the batch runs once; its two registered callbacks — the map's own
cleanup closure and the explicit `onDestroy` one — each run once in that
single batch), the map holds the new instance, and the new instance is
alive. -/
theorem c6_exclusive_replace :
    (∀ (s : Sched) (t a b : Nat), Inv s → aget s.amap t = some a →
      (getInst s a).isSome = true →
      aget (amapSetOp s t b).amap t = some b ∧
      keyCount (amapSetOp s t b).amap t = 1 ∧
      isDestroyed (amapSetOp s t b) a = true) ∧
    (∀ (steps : List Step) (id : Nat),
      evCount (runScript steps Sched.init).events (Ev.destroyRun id) ≤ 1) ∧
    (let s := runScript
        [.ext .newLoop, .ext (.amapSet 7 0), .ext (.onDestroyId 0 .skip), .ext .newLoop,
         .ext (.amapSet 7 1), .tick 4 1, .tick 4 1] Sched.init
     aget s.amap 7 = some 1 ∧ keyCount s.amap 7 = 1 ∧
     evCount s.events (Ev.destroyRun 0) = 1 ∧ evCount s.events (Ev.destroyCb 0) = 2 ∧
     isDestroyed s 0 = true ∧ isDestroyed s 1 = false) := by
  refine ⟨?_, ?_, ?_⟩
  · intro s t a b hI hocc hex
    have hamap2 : (amapSetOp s t b).amap = aset s.amap t b := by
      unfold amapSetOp
      rw [hocc, addDestroyCb_amap]
      show (aset (destroyMark s a).amap t b) = aset s.amap t b
      rw [destroyMark_amap]
    refine ⟨by rw [hamap2]; exact aget_aset_self s.amap t b,
      by rw [hamap2]; unfold keyCount at *; exact keyCount_aset_one s.amap t b hI.amapNd, ?_⟩
    unfold amapSetOp
    rw [hocc, isDestroyed_addDestroyCb]
    show isDestroyed { destroyMark s a with amap := _ } a = true
    have hmark : isDestroyed (destroyMark s a) a = true := by
      cases hg : getInst s a with
      | none => rw [hg] at hex; exact absurd hex (by simp)
      | some i => exact isDestroyed_destroyMark_self hg
    exact hmark
  · intro steps id
    exact (inv_reach steps).dOnce id
  · with_unfolding_all decide

/-- Witness for `c6_exclusive_replace`: instantiating conjunct (i) at a
concrete state in which instance `0` occupies target `7`. -/
theorem c6_exclusive_replace_witness :
    aget (amapSetOp (runScript [.ext .newLoop, .ext (.amapSet 7 0), .ext .newLoop] Sched.init)
        7 1).amap 7 = some 1 ∧
    keyCount (amapSetOp (runScript [.ext .newLoop, .ext (.amapSet 7 0), .ext .newLoop] Sched.init)
        7 1).amap 7 = 1 ∧
    isDestroyed (amapSetOp (runScript [.ext .newLoop, .ext (.amapSet 7 0), .ext .newLoop] Sched.init)
        7 1) 0 = true :=
  c6_exclusive_replace.1 (runScript [.ext .newLoop, .ext (.amapSet 7 0), .ext .newLoop] Sched.init)
    7 0 1 (inv_reach [.ext .newLoop, .ext (.amapSet 7 0), .ext .newLoop])
    (by with_unfolding_all decide) (by with_unfolding_all decide)

/-! ### Event ownership over one tick -/

theorem updatePassGo_cons (s : Sched) (id : Nat) (t : List Nat) :
    updatePassGo (id :: t) s = updatePassGo t
      (match getInst s id with
       | some i => if i.destroyed = false && i.paused = false then updateAnimation s id else s
       | none => s) := rfl

theorem updatePassGo_cons_none (s : Sched) (id : Nat) (t : List Nat)
    (hg : getInst s id = none) :
    updatePassGo (id :: t) s = updatePassGo t s := by
  rw [updatePassGo_cons, hg]

theorem updatePassGo_cons_some (s : Sched) (id : Nat) (t : List Nat) (i : Inst)
    (hg : getInst s id = some i) (hb : (i.destroyed = false && i.paused = false) = true) :
    updatePassGo (id :: t) s = updatePassGo t (updateAnimation s id) := by
  rw [updatePassGo_cons, hg]
  show updatePassGo t
      (if (i.destroyed = false && i.paused = false) = true then updateAnimation s id else s) = _
  rw [if_pos hb]

theorem updatePassGo_cons_skip (s : Sched) (id : Nat) (t : List Nat) (i : Inst)
    (hg : getInst s id = some i) (hb : ¬(i.destroyed = false && i.paused = false) = true) :
    updatePassGo (id :: t) s = updatePassGo t s := by
  rw [updatePassGo_cons, hg]
  show updatePassGo t
      (if (i.destroyed = false && i.paused = false) = true then updateAnimation s id else s) = _
  rw [if_neg hb]

theorem updatePassGo_events (l : List Nat) : ∀ {s : Sched}, Inv s →
    ∃ Δ, (updatePassGo l s).events = Δ ++ s.events ∧
      ∀ e ∈ Δ, evId e ∈ l ∧ evIsDestroyKind e = false := by
  induction l with
  | nil => exact fun _ => ⟨[], rfl, by simp⟩
  | cons id t ih =>
    intro s hI
    cases hg : getInst s id with
    | none =>
      rw [updatePassGo_cons_none s id t hg]
      obtain ⟨Δ, hΔ, hp⟩ := ih hI
      exact ⟨Δ, hΔ, fun e he => ⟨List.mem_cons_of_mem id (hp e he).1, (hp e he).2⟩⟩
    | some i =>
      by_cases hb : (i.destroyed = false && i.paused = false) = true
      · rw [updatePassGo_cons_some s id t i hg hb]
        have hdf : isDestroyed s id = false := by
          rw [isDestroyed_eq_of_getInst hg]
          have := hb
          simp only [Bool.and_eq_true, decide_eq_true_eq] at this
          exact this.1
        obtain ⟨hU, Δ1, hev1, hown1, _⟩ := updateAnimation_spec s id hI.wfc
        obtain ⟨Δ2, hΔ2, hp2⟩ := ih (inv_updateAnimation id hI hdf)
        refine ⟨Δ2 ++ Δ1, by rw [hΔ2, hev1, List.append_assoc], ?_⟩
        intro e he
        rcases List.mem_append.mp he with h1 | h2
        · exact ⟨List.mem_cons_of_mem id (hp2 e h1).1, (hp2 e h1).2⟩
        · exact ⟨by rw [(hown1 e h2).1]; exact List.mem_cons_self id t, (hown1 e h2).2⟩
      · rw [updatePassGo_cons_skip s id t i hg hb]
        obtain ⟨Δ, hΔ, hp⟩ := ih hI
        exact ⟨Δ, hΔ, fun e he => ⟨List.mem_cons_of_mem id (hp e he).1, (hp e he).2⟩⟩

theorem destroyPhase_cons (fuel k : Nat) (s : Sched) :
    destroyPhase (fuel + 1) k s =
      (match (s.destroyedAnims.drop k).head? with
       | none => s
       | some id => destroyPhase fuel (k + 1) (destroyAnimation s id)) := rfl

theorem destroyPhase_events (fuel : Nat) : ∀ (k : Nat) {s : Sched}, Inv s →
    ∃ Δ, (destroyPhase fuel k s).events = Δ ++ s.events ∧
      ∀ e ∈ Δ, evIsDestroyKind e = true := by
  induction fuel with
  | zero =>
    intro k s hI
    exact ⟨[], rfl, by simp⟩
  | succ f ih =>
    intro k s hI
    rw [destroyPhase_cons]
    cases hh : (s.destroyedAnims.drop k).head? with
    | none => exact ⟨[], rfl, by simp⟩
    | some id =>
      have hmem : id ∈ s.destroyedAnims := by
        have h1 : id ∈ s.destroyedAnims.drop k := by
          cases hd : s.destroyedAnims.drop k with
          | nil => rw [hd] at hh; cases hh
          | cons a t =>
            rw [hd] at hh
            simp only [List.head?_cons, Option.some.injEq] at hh
            rw [← hh]
            exact List.mem_cons_self a t
        exact (List.drop_sublist k s.destroyedAnims).subset h1
      have hdead := hI.w3 id hmem
      obtain ⟨hD, ⟨Δ1, hev1, hown1, _⟩, _⟩ := destroyAnimation_spec s id hI.wfc hdead
      obtain ⟨Δ2, hΔ2, hp2⟩ := ih (k + 1) (inv_destroyAnimation id hI hdead)
      refine ⟨Δ2 ++ Δ1, by rw [hΔ2, hev1, List.append_assoc], ?_⟩
      intro e he
      rcases List.mem_append.mp he with h1 | h2
      · exact hp2 e h1
      · exact (hown1 e h2).2

theorem tick_events (fuel : Nat) (d : Rat) {s : Sched} (hI : Inv s) :
    ∃ Δ, (tick fuel d s).events = Δ ++ s.events ∧
      ∀ e ∈ Δ, evIsDestroyKind e = true ∨
        (evId e ∈ s.animations ∧ evIsDestroyKind e = false) := by
  have hIa : Inv { advClock d s with updating := true } :=
    inv_setUpdating true (inv_advClock d hI)
  obtain ⟨Δ1, hΔ1, hp1⟩ := updatePassGo_events (advClock d s).animations hIa
  have hIp : Inv (updatePassGo (advClock d s).animations { advClock d s with updating := true }) :=
    inv_updatePassGo (advClock d s).animations hIa
  obtain ⟨Δ2, hΔ2, hp2⟩ := destroyPhase_events fuel 0 hIp
  refine ⟨Δ2 ++ Δ1, ?_, ?_⟩
  · show (destroyPhase fuel 0
      (updatePassGo (advClock d s).animations { advClock d s with updating := true })).events = _
    rw [hΔ2, hΔ1]
    simp [advClock]
  · intro e he
    rcases List.mem_append.mp he with h1 | h2
    · exact Or.inl (hp2 e h1)
    · exact Or.inr (hp1 e h2)

/-! ### Instance preservation over one tick for instances outside the pass -/

theorem updatePassGo_keep (l : List Nat) : ∀ {s : Sched} (id : Nat) (i : Inst), Inv s →
    id ∉ l → getInst s id = some i →
    ∃ i', getInst (updatePassGo l s) id = some i' ∧ InstKeep i i' := by
  induction l with
  | nil => exact fun id i _ _ hg => ⟨i, hg, instKeep_refl i⟩
  | cons j t ih =>
    intro s id i hI hnm hg
    have hne : id ≠ j := fun hh => hnm (hh ▸ List.mem_cons_self j t)
    have hnmt : id ∉ t := fun hh => hnm (List.mem_cons_of_mem j hh)
    cases hgj : getInst s j with
    | none =>
      rw [updatePassGo_cons_none s j t hgj]
      exact ih id i hI hnmt hg
    | some ij =>
      by_cases hb : (ij.destroyed = false && ij.paused = false) = true
      · rw [updatePassGo_cons_some s j t ij hgj hb]
        have hdf : isDestroyed s j = false := by
          rw [isDestroyed_eq_of_getInst hgj]
          have := hb
          simp only [Bool.and_eq_true, decide_eq_true_eq] at this
          exact this.1
        obtain ⟨hU, _⟩ := updateAnimation_spec s j hI.wfc
        obtain ⟨i1, hg1, hk1⟩ := hU.inst_keep id i hne hg
        obtain ⟨i2, hg2, hk2⟩ := ih id i1 (inv_updateAnimation j hI hdf) hnmt hg1
        exact ⟨i2, hg2, instKeep_trans hk1 hk2⟩
      · rw [updatePassGo_cons_skip s j t ij hgj hb]
        exact ih id i hI hnmt hg

theorem destroyPhase_keep (fuel : Nat) : ∀ (k : Nat) {s : Sched} (id : Nat) (i : Inst), Inv s →
    getInst s id = some i →
    ∃ i', getInst (destroyPhase fuel k s) id = some i' ∧ InstKeep i i' := by
  induction fuel with
  | zero =>
    intro k s id i _ hg
    exact ⟨i, hg, instKeep_refl i⟩
  | succ f ih =>
    intro k s id i hI hg
    rw [destroyPhase_cons]
    cases hh : (s.destroyedAnims.drop k).head? with
    | none => exact ⟨i, hg, instKeep_refl i⟩
    | some j =>
      have hmem : j ∈ s.destroyedAnims := by
        have h1 : j ∈ s.destroyedAnims.drop k := by
          cases hd : s.destroyedAnims.drop k with
          | nil => rw [hd] at hh; cases hh
          | cons a t =>
            rw [hd] at hh
            simp only [List.head?_cons, Option.some.injEq] at hh
            rw [← hh]
            exact List.mem_cons_self a t
        exact (List.drop_sublist k s.destroyedAnims).subset h1
      have hdead := hI.w3 j hmem
      obtain ⟨hD, _⟩ := destroyAnimation_spec s j hI.wfc hdead
      obtain ⟨i1, hg1, hk1⟩ := hD.inst_keep id i hg
      obtain ⟨i2, hg2, hk2⟩ := ih (k + 1) id i1 (inv_destroyAnimation j hI hdead) hg1
      exact ⟨i2, hg2, instKeep_trans hk1 hk2⟩

theorem getInst_mergeNew (s : Sched) (id : Nat) : getInst (mergeNew s) id = getInst s id := rfl

theorem tick_keep (fuel : Nat) (d : Rat) {s : Sched} (id : Nat) (i : Inst) (hI : Inv s)
    (hnm : id ∉ s.animations) (hg : getInst s id = some i) :
    ∃ i', getInst (tick fuel d s) id = some i' ∧ InstKeep i i' := by
  have hIa : Inv { advClock d s with updating := true } :=
    inv_setUpdating true (inv_advClock d hI)
  have hga : getInst { advClock d s with updating := true } id = some i := hg
  have hnma : id ∉ (advClock d s).animations := hnm
  obtain ⟨i1, hg1, hk1⟩ := updatePassGo_keep (advClock d s).animations id i hIa hnma hga
  have hIp : Inv (updatePassGo (advClock d s).animations { advClock d s with updating := true }) :=
    inv_updatePassGo (advClock d s).animations hIa
  obtain ⟨i2, hg2, hk2⟩ := destroyPhase_keep fuel 0 id i1 hIp hg1
  refine ⟨i2, ?_, instKeep_trans hk1 hk2⟩
  show getInst (destroyPhase fuel 0
    (updatePassGo (advClock d s).animations { advClock d s with updating := true })) id = some i2
  exact hg2

/-- Claim C5: an instance not in the live set when a tick begins (in
particular one created inside another instance's frame callback during
that tick) is not advanced during that tick — no `update` event is
recorded for it and its `time` and `frame` are untouched — and, being in
the live set at the next tick with its guard passing when the pass
reaches it, it is advanced during that next tick. -/
theorem c5_deferred_add :
    (∀ (s : Sched) (fuel : Nat) (d : Rat) (id : Nat), Inv s → id ∉ s.animations →
      evCount (tick fuel d s).events (Ev.update id) = evCount s.events (Ev.update id) ∧
      (∀ i, getInst s id = some i → ∃ i', getInst (tick fuel d s) id = some i' ∧
        i'.time = i.time ∧ i'.frame = i.frame)) ∧
    (∀ (s' : Sched) (fuel2 : Nat) (d2 : Rat) (id : Nat) (l1 l2 : List Nat) (i : Inst),
      Inv s' →
      s'.animations = l1 ++ id :: l2 →
      getInst (updatePassGo l1 { advClock d2 s' with updating := true }) id = some i →
      i.destroyed = false → i.paused = false →
      Ev.update id ∈ (tick fuel2 d2 s').events) := by
  constructor
  · intro s fuel d id hI hnm
    constructor
    · obtain ⟨Δ, hΔ, hp⟩ := tick_events fuel d hI
      rw [hΔ, evCount_append]
      have hz : evCount Δ (Ev.update id) = 0 := by
        refine evCount_eq_zero_of_not_mem ?_
        intro hmem
        rcases hp _ hmem with h1 | h2
        · simp [evIsDestroyKind] at h1
        · exact hnm (by simpa [evId] using h2.1)
      omega
    · intro i hg
      obtain ⟨i', hg', hk⟩ := tick_keep fuel d id i hI hnm hg
      exact ⟨i', hg', hk.1, hk.2.2.2.2.1⟩
  · intro s' fuel2 d2 id l1 l2 i hI hanim hg hdf hpf
    have hIa : Inv { advClock d2 s' with updating := true } :=
      inv_setUpdating true (inv_advClock d2 hI)
    set sB : Sched := { advClock d2 s' with updating := true } with hsB
    have hsplit : updatePassGo (advClock d2 s').animations sB
        = updatePassGo l2
            (match getInst (updatePassGo l1 sB) id with
             | some i => if i.destroyed = false && i.paused = false then
                 updateAnimation (updatePassGo l1 sB) id
               else updatePassGo l1 sB
             | none => updatePassGo l1 sB) := by
      have h1 : (advClock d2 s').animations = l1 ++ id :: l2 := hanim
      rw [h1]
      have happ : ∀ (la lb : List Nat) (s0 : Sched),
          updatePassGo (la ++ lb) s0 = updatePassGo lb (updatePassGo la s0) := by
        intro la
        induction la with
        | nil => exact fun lb s0 => rfl
        | cons x t ihx =>
          intro lb s0
          rw [List.cons_append, updatePassGo_cons, updatePassGo_cons]
          exact ihx lb _
      rw [happ l1 (id :: l2) sB, updatePassGo_cons]
    set sb := updatePassGo l1 sB with hsb
    have hIb : Inv sb := inv_updatePassGo l1 hIa
    have hbtrue : (i.destroyed = false && i.paused = false) = true := by
      simp [hdf, hpf]
    obtain ⟨hU, Δ1, hev1, _, _, _, hfire⟩ := updateAnimation_spec sb id hIb.wfc
    have hupd : Ev.update id ∈ (updateAnimation sb id).events := by
      rw [hev1]
      exact List.mem_append_left _ (hfire i hg).1
    have hdfb : isDestroyed sb id = false := by
      rw [isDestroyed_eq_of_getInst hg]
      exact hdf
    have hIu : Inv (updateAnimation sb id) := inv_updateAnimation id hIb hdfb
    obtain ⟨Δ2, hΔ2, _⟩ := updatePassGo_events l2 hIu
    have hmem2 : Ev.update id ∈ (updatePassGo l2 (updateAnimation sb id)).events := by
      rw [hΔ2]
      exact List.mem_append_right _ hupd
    have hIl2 : Inv (updatePassGo l2 (updateAnimation sb id)) := inv_updatePassGo l2 hIu
    obtain ⟨Δ3, hΔ3, _⟩ := destroyPhase_events fuel2 0 hIl2
    show Ev.update id ∈ (updateAnimations fuel2 (advClock d2 s')).events
    have hpassEq : updatePassGo (advClock d2 s').animations sB
        = updatePassGo l2 (updateAnimation sb id) := by
      rw [hsplit, hg]
      show updatePassGo l2
          (if (i.destroyed = false && i.paused = false) = true then updateAnimation sb id else sb)
        = updatePassGo l2 (updateAnimation sb id)
      rw [if_pos hbtrue]
    show Ev.update id ∈ (destroyPhase fuel2 0 (updatePassGo (advClock d2 s').animations sB)).events
    rw [hpassEq, hΔ3]
    exact List.mem_append_right _ hmem2

theorem c5_deferred_add_witness :
    evCount (tick 4 1 (runScript [.ext .newLoop, .ext (.destroyId 0), .tick 4 1]
        Sched.init)).events (Ev.update 0)
      = evCount (runScript [.ext .newLoop, .ext (.destroyId 0), .tick 4 1]
        Sched.init).events (Ev.update 0) ∧
    Ev.update 0 ∈ (tick 4 1 (runScript [.ext .newLoop] Sched.init)).events := by
  refine ⟨(c5_deferred_add.1 (runScript [.ext .newLoop, .ext (.destroyId 0), .tick 4 1]
    Sched.init) 4 1 0 (inv_reach _) (by with_unfolding_all decide)).1, ?_⟩
  exact c5_deferred_add.2 (runScript [.ext .newLoop] Sched.init) 4 1 0 [] []
    { startTime := 0, startFrame := 0, timeScale := 1, paused := false, time := 0,
      timeOld := 0, deltaTime := 0, duration := none, destroyed := false, frame := 0 }
    (inv_reach _) (by with_unfolding_all decide) (by with_unfolding_all rfl)
    rfl rfl

/-! ### C4: time accumulation for a quiet looping instance -/

theorem runFrameCbs_nil (id : Nat) (s : Sched) (b : Bool) :
    runFrameCbs id [] s b = (s, b) := rfl

theorem runNextFrameCbs_nil (id : Nat) (s : Sched) (b : Bool) :
    runNextFrameCbs id [] s b = (s, b) := rfl

theorem destroyPhase_nil (fuel k : Nat) (s : Sched) (hd : s.destroyedAnims = []) :
    destroyPhase fuel k s = s := by
  cases fuel with
  | zero => rfl
  | succ f =>
    rw [destroyPhase_cons, hd, List.drop_nil]
    rfl

theorem updateAnimation_some (s : Sched) (id : Nat) (i : Inst) (hg : getInst s id = some i) :
    updateAnimation s id =
      (if 0 ≤ i.time + s.deltaTime * i.timeScale then
        uaCore (setInst (emitEv (.update id) (setInst s id
            { i with timeOld := i.time, deltaTime := s.deltaTime * i.timeScale,
                     time := i.time + s.deltaTime * i.timeScale })) id
            { i with timeOld := i.time, deltaTime := s.deltaTime * i.timeScale,
                     time := i.time + s.deltaTime * i.timeScale, frame := i.frame + 1 }) id
       else emitEv (.update id) (setInst s id
            { i with timeOld := i.time, deltaTime := s.deltaTime * i.timeScale,
                     time := i.time + s.deltaTime * i.timeScale })) := by
  unfold updateAnimation
  rw [hg]

theorem updateAnimation_quiet (s : Sched) (id : Nat) (i : Inst)
    (hg : getInst s id = some i) (hf : aget s.frameCbs id = none)
    (hn : aget s.nextFrameCbs id = none) (hdur : i.duration = none) :
    ∃ i', getInst (updateAnimation s id) id = some i' ∧
      i'.time = i.time + s.deltaTime * i.timeScale ∧ i'.timeScale = i.timeScale ∧
      i'.paused = i.paused ∧ i'.destroyed = i.destroyed ∧ i'.duration = none ∧
      (updateAnimation s id).animations = s.animations ∧
      (updateAnimation s id).newAnims = s.newAnims ∧
      (updateAnimation s id).destroyedAnims = s.destroyedAnims ∧
      aget (updateAnimation s id).frameCbs id = none ∧
      aget (updateAnimation s id).nextFrameCbs id = none := by
  rw [updateAnimation_some s id i hg]
  by_cases hnn : (0:Rat) ≤ i.time + s.deltaTime * i.timeScale
  · rw [if_pos hnn]
    set i2 : Inst := { i with timeOld := i.time, deltaTime := s.deltaTime * i.timeScale, time := i.time + s.deltaTime * i.timeScale, frame := i.frame + 1 } with hi2
    set s2 : Sched := setInst (emitEv (.update id) (setInst s id { i with timeOld := i.time, deltaTime := s.deltaTime * i.timeScale, time := i.time + s.deltaTime * i.timeScale })) id i2 with hs2
    have haf : aget s2.frameCbs id = none := hf
    have han : aget s2.nextFrameCbs id = none := hn
    have hg2 : getInst s2 id = some i2 := by
      rw [hs2]
      show aget (aset _ id i2) id = some i2
      exact aget_aset_self _ id i2
    have hcore : uaCore s2 id
        = uaPost (uaComplete { s2 with nextFrameCbs := adel s2.nextFrameCbs id } id) id false := by
      simp only [uaCore, haf, han, Option.getD_none, runFrameCbs_nil, runNextFrameCbs_nil]
    have hgc : getInst { s2 with nextFrameCbs := adel s2.nextFrameCbs id } id = some i2 := hg2
    have hdur2 : i2.duration = none := hdur
    have hic : isComplete i2 = false := by
      simp [isComplete, hdur]
    have hcomp : uaComplete { s2 with nextFrameCbs := adel s2.nextFrameCbs id } id
        = { s2 with nextFrameCbs := adel s2.nextFrameCbs id } := uaComplete_eq_skip hgc hic
    have hpost : uaPost { s2 with nextFrameCbs := adel s2.nextFrameCbs id } id false
        = { s2 with nextFrameCbs := adel s2.nextFrameCbs id } :=
      uaPost_eq_keep hgc (by simp [hic])
    rw [hcore, hcomp, hpost]
    refine ⟨i2, hg2, rfl, rfl, rfl, rfl, hdur2, rfl, rfl, rfl, hf, ?_⟩
    show aget (adel s2.nextFrameCbs id) id = none
    exact aget_adel_self _ id
  · rw [if_neg hnn]
    refine ⟨{ i with timeOld := i.time, deltaTime := s.deltaTime * i.timeScale, time := i.time + s.deltaTime * i.timeScale }, ?_, rfl, rfl, rfl, rfl, hdur, rfl, rfl, rfl, hf, hn⟩
    show aget (aset _ id _) id = some _
    exact aget_aset_self _ id _

/-- A "quiet" state for the accumulation claim: instance `id` is the only
live one, it has `timeScale` σ, `time` t, pause flag p, it is not
destroyed and never completes (`duration = Infinity`), and no callbacks
are registered for it. -/
def C4St (id : Nat) (σ t : Rat) (p : Bool) (s : Sched) : Prop :=
  (∃ i, getInst s id = some i ∧ i.time = t ∧ i.timeScale = σ ∧ i.paused = p ∧
      i.destroyed = false ∧ i.duration = none) ∧
  s.animations = [id] ∧ s.newAnims = [] ∧ s.destroyedAnims = [] ∧
  aget s.frameCbs id = none ∧ aget s.nextFrameCbs id = none

theorem tick_c4st (fuel : Nat) (d : Rat) (id : Nat) (σ t : Rat) (p : Bool) (s : Sched)
    (h : C4St id σ t p s) :
    C4St id σ (if p then t else t + d * σ) p (tick fuel d s) := by
  obtain ⟨⟨i, hg, hti, hts, hp, hdes, hdur⟩, ha, hne, hde, hf, hnf⟩ := h
  set sB : Sched := { advClock d s with updating := true } with hsB
  have hgB : getInst sB id = some i := hg
  have hfB : aget sB.frameCbs id = none := hf
  have hnB : aget sB.nextFrameCbs id = none := hnf
  have haB : (advClock d s).animations = [id] := ha
  have hdeB : sB.destroyedAnims = [] := hde
  have hUA : tick fuel d s
      = { mergeNew { destroyPhase fuel 0 (updatePassGo (advClock d s).animations sB)
            with destroyedAnims := [] } with updating := false } := rfl
  cases p with
  | true =>
    have hb : ¬(i.destroyed = false && i.paused = false) = true := by simp [hdes, hp]
    have hpass : updatePassGo [id] sB = sB := by
      rw [updatePassGo_cons_skip sB id [] i hgB hb]
      rfl
    rw [hUA, haB, hpass, destroyPhase_nil fuel 0 sB hdeB]
    refine ⟨⟨i, hgB, hti, hts, hp, hdes, hdur⟩, ?_, hne, rfl, hf, hnf⟩
    show s.newAnims.foldl addUniq s.animations = [id]
    rw [hne, ha]
    rfl
  | false =>
    have hb : (i.destroyed = false && i.paused = false) = true := by simp [hdes, hp]
    have hpassEq : updatePassGo [id] sB = updateAnimation sB id := by
      rw [updatePassGo_cons_some sB id [] i hgB hb]
      rfl
    obtain ⟨i', hg', ht', hts', hp', hdes', hdur', hAn, hNew, hDest, hF, hNF⟩ :=
      updateAnimation_quiet sB id i hgB hfB hnB hdur
    have hdeU : (updateAnimation sB id).destroyedAnims = [] := by rw [hDest]; exact hdeB
    rw [hUA, haB, hpassEq, destroyPhase_nil fuel 0 (updateAnimation sB id) hdeU]
    refine ⟨⟨i', hg', ?_, by rw [hts', hts], by rw [hp', hp], by rw [hdes', hdes], hdur'⟩,
      ?_, ?_, rfl, hF, hNF⟩
    · have hdB : sB.deltaTime = d := rfl
      rw [ht', hti, hts, hdB]
      rfl
    · show (updateAnimation sB id).newAnims.foldl addUniq (updateAnimation sB id).animations = [id]
      rw [hNew, hAn]
      show s.newAnims.foldl addUniq s.animations = [id]
      rw [hne, ha]
      rfl
    · show (updateAnimation sB id).newAnims = []
      rw [hNew]
      exact hne

theorem setPausedId_c4st (id : Nat) (σ t : Rat) (p b : Bool) (s : Sched) (self : Nat)
    (h : C4St id σ t p s) : C4St id σ t b (runProg (.setPausedId id b) self s).1 := by
  obtain ⟨⟨i, hg, hti, hts, hp, hdes, hdur⟩, ha, hne, hde, hf, hnf⟩ := h
  show C4St id σ t b (modifyInst s id (fun a => { a with paused := b }))
  unfold modifyInst
  rw [hg]
  refine ⟨⟨{ i with paused := b }, ?_, hti, hts, rfl, hdes, hdur⟩, ha, hne, hde, hf, hnf⟩
  show aget (aset _ id _) id = some _
  exact aget_aset_self _ id _

/-- A C4 run: for each `(delta, pausedFlag)` in the list, set the
instance's `paused` field (external code between ticks) and then tick. -/
def c4run (ds : List (Rat × Bool)) (s0 : Sched) : Sched :=
  ds.foldl (fun s db => tick 4 db.1 (runProg (.setPausedId 0 db.2) s.count s).1) s0

/-- The spec's sum: each non-paused tick contributes `di * σ`. -/
def c4sum (σ t : Rat) (ds : List (Rat × Bool)) : Rat :=
  ds.foldl (fun a db => if db.2 then a else a + db.1 * σ) t

/-- Claim C4: a live, never-completing instance with constant `timeScale`
σ and no callbacks, starting at `time = t`, ends a sequence of ticks with
deltas d1..dn (with its `paused` flag set as given before each tick) at
`time = t` plus the sum of `di * σ` over the non-paused ticks; the paused
ticks contribute nothing. -/
theorem c4_time_sum (σ : Rat) (ds : List (Rat × Bool)) :
    ∀ (s0 : Sched) (t : Rat) (p : Bool), C4St 0 σ t p s0 →
    ∃ i, getInst (c4run ds s0) 0 = some i ∧ i.time = c4sum σ t ds := by
  induction ds with
  | nil =>
    intro s0 t p h
    obtain ⟨⟨i, hg, hti, _⟩, _⟩ := h
    exact ⟨i, hg, hti⟩
  | cons db tl ih =>
    intro s0 t p h
    have h1 := setPausedId_c4st 0 σ t p db.2 s0 s0.count h
    have h2 := tick_c4st 4 db.1 0 σ t db.2 _ h1
    exact ih _ _ db.2 h2

theorem c4_time_sum_witness :
    ∃ i, getInst (c4run [(1, false), (5, true), (1/2, false)]
        (runScript [.ext .newLoop, .ext (.setTimeScaleId 0 2)] Sched.init)) 0 = some i ∧
      i.time = c4sum 2 0 [(1, false), (5, true), (1/2, false)] :=
  c4_time_sum 2 [(1, false), (5, true), (1/2, false)]
    (runScript [.ext .newLoop, .ext (.setTimeScaleId 0 2)] Sched.init) 0 false
    ⟨⟨{ startTime := 0, startFrame := 0, timeScale := 2, paused := false, time := 0,
        timeOld := 0, deltaTime := 0, duration := none, destroyed := false, frame := 0 },
      by with_unfolding_all rfl, rfl, rfl, rfl, rfl, rfl⟩,
      by with_unfolding_all rfl, by with_unfolding_all rfl, by with_unfolding_all rfl,
      by with_unfolding_all rfl, by with_unfolding_all rfl⟩

/-! ### C3: next-frame resolvers across destroy and across an advance -/

theorem uaComplete_nextFrame_count (s : Sched) (id j : Nat) :
    evCount (uaComplete s id).events (Ev.nextFrameCb j)
      = evCount s.events (Ev.nextFrameCb j) := by
  cases hg : getInst s id with
  | none =>
    have h : uaComplete s id = s := by unfold uaComplete; rw [hg]
    rw [h]
  | some i2 =>
    by_cases hc : isComplete i2 = true
    · rw [uaComplete_eq_fire hg hc, runCompleteCbs_events]
      show evCount (_ ++ Ev.completeRun id :: s.events) _ = _
      rw [evCount_append, evCount_replicate]
      simp [evCount]
    · rw [uaComplete_eq_skip hg (by simpa using hc)]

theorem uaPost_nextFrame_count (s : Sched) (id j : Nat) (b : Bool) :
    evCount (uaPost s id b).events (Ev.nextFrameCb j)
      = evCount s.events (Ev.nextFrameCb j) := by
  cases hg : getInst s id with
  | none =>
    have h : uaPost s id b = s := by unfold uaPost; rw [hg]
    rw [h]
  | some i3 =>
    by_cases hc : (b || isComplete i3) = true
    · rw [uaPost_eq_destroy hg hc, destroyMark_events]
    · rw [uaPost_eq_keep hg (by simpa using hc)]

theorem uaCore_nextFrame_count (s2 : Sched) (id : Nat) (l : List Prog)
    (haf : aget s2.frameCbs id = none) (hnl : aget s2.nextFrameCbs id = some l) :
    evCount (uaCore s2 id).events (Ev.nextFrameCb id)
      = l.length + evCount s2.events (Ev.nextFrameCb id) := by
  have hcore : uaCore s2 id
      = uaPost (uaComplete (runNextFrameCbs id l
          { s2 with nextFrameCbs := adel s2.nextFrameCbs id } false).1 id) id
        (runNextFrameCbs id l { s2 with nextFrameCbs := adel s2.nextFrameCbs id } false).2 := by
    simp only [uaCore, haf, Option.getD_none, runFrameCbs_nil, hnl, Option.getD_some]
  rw [hcore, uaPost_nextFrame_count, uaComplete_nextFrame_count, runNextFrameCbs_events]
  show evCount (List.replicate l.length (Ev.nextFrameCb id) ++ s2.events) (Ev.nextFrameCb id)
    = l.length + evCount s2.events (Ev.nextFrameCb id)
  rw [evCount_append, evCount_replicate]
  simp

theorem addNextFrameCb_dead (s : Sched) (id : Nat) (p : Prog)
    (hdead : isDestroyed s id = true) : addNextFrameCb s id p = s := by
  unfold addNextFrameCb
  cases hg : getInst s id with
  | none => rfl
  | some i =>
    have hd : i.destroyed = true := by
      rw [isDestroyed_eq_of_getInst hg] at hdead
      exact hdead
    show (if i.destroyed = true then s else _) = s
    rw [if_pos hd]

/-- Claim C3 (amended): a pending next-frame resolver is NOT invoked when
the instance is destroyed: the destroy-application drops the registry
entry while emitting only destroy-kind events, so the `nextFrameCb`
count is unchanged and the promise is abandoned rather than resolved
(with `"none"` or anything else).  Registering on an already-destroyed
instance is a no-op, and on the instance's next successful advance
(post-advance `time ≥ 0`, no frame callbacks interposed) every pending
next-frame resolver runs exactly once. -/
theorem c3_amended :
    (∀ (s : Sched) (id : Nat), WFc s → isDestroyed s id = true →
      aget (destroyAnimation s id).nextFrameCbs id = none ∧
      evCount (destroyAnimation s id).events (Ev.nextFrameCb id)
        = evCount s.events (Ev.nextFrameCb id)) ∧
    (∀ (s : Sched) (id self : Nat) (p : Prog), isDestroyed s id = true →
      runProg (.nextFrameId id p) self s = (s, false)) ∧
    (∀ (s : Sched) (id : Nat) (i : Inst) (l : List Prog),
      getInst s id = some i → aget s.frameCbs id = none →
      aget s.nextFrameCbs id = some l →
      0 ≤ i.time + s.deltaTime * i.timeScale →
      evCount (updateAnimation s id).events (Ev.nextFrameCb id)
        = l.length + evCount s.events (Ev.nextFrameCb id)) := by
  refine ⟨?_, ?_, ?_⟩
  · intro s id hwf hdead
    obtain ⟨_, ⟨Δ, hev, hown, _⟩, _, hnf, _⟩ := destroyAnimation_spec s id hwf hdead
    refine ⟨hnf, ?_⟩
    rw [hev, evCount_append]
    have hz : evCount Δ (Ev.nextFrameCb id) = 0 := by
      refine evCount_eq_zero_of_not_mem ?_
      intro hmem
      have := (hown _ hmem).2
      simp [evIsDestroyKind] at this
    omega
  · intro s id self p hdead
    show (addNextFrameCb s id p, false) = (s, false)
    rw [addNextFrameCb_dead s id p hdead]
  · intro s id i l hg hf hnl hadv
    rw [updateAnimation_some s id i hg, if_pos hadv]
    have hstep := uaCore_nextFrame_count
      (setInst (emitEv (Ev.update id) (setInst s id { i with timeOld := i.time, deltaTime := s.deltaTime * i.timeScale, time := i.time + s.deltaTime * i.timeScale })) id { i with timeOld := i.time, deltaTime := s.deltaTime * i.timeScale, time := i.time + s.deltaTime * i.timeScale, frame := i.frame + 1 })
      id l hf hnl
    rw [hstep]
    show l.length + evCount (Ev.update id :: s.events) (Ev.nextFrameCb id)
      = l.length + evCount s.events (Ev.nextFrameCb id)
    simp [evCount]

theorem c3_amended_witness :
    aget (destroyAnimation (runScript [.ext .newLoop, .ext (.nextFrameId 0 .skip),
        .ext (.destroyId 0)] Sched.init) 0).nextFrameCbs 0 = none ∧
    evCount (updateAnimation (advClock 1 (runScript [.ext .newLoop,
        .ext (.nextFrameId 0 .skip)] Sched.init)) 0).events (Ev.nextFrameCb 0)
      = [Prog.skip].length + evCount (advClock 1 (runScript [.ext .newLoop,
        .ext (.nextFrameId 0 .skip)] Sched.init)).events (Ev.nextFrameCb 0) := by
  refine ⟨(c3_amended.1 _ 0 (inv_reach _).wfc (by with_unfolding_all decide)).1, ?_⟩
  exact c3_amended.2.2 _ 0
    { startTime := 0, startFrame := 0, timeScale := 1, paused := false, time := 0,
      timeOld := 0, deltaTime := 0, duration := none, destroyed := false, frame := 0 }
    [Prog.skip] (by with_unfolding_all rfl) (by with_unfolding_all rfl)
    (by with_unfolding_all rfl) (by with_unfolding_all decide)

/-! ### C7: what the destroy-application phase clears (and what it keeps) -/

/-- Claim C7 (amended): when the destroy-application phase of a tick
processes a marked instance, it is removed from the live set and its
frame, next-frame and destroy registries are cleared — but the
complete-callback registry is NOT cleared: its entry survives the
destruction unchanged, so a global registry can retain an entry keyed by
a destroyed instance. -/
theorem c7_amended (s : Sched) (id : Nat) (hI : Inv s)
    (hdead : isDestroyed s id = true) :
    id ∉ (destroyAnimation s id).animations ∧
    aget (destroyAnimation s id).frameCbs id = none ∧
    aget (destroyAnimation s id).nextFrameCbs id = none ∧
    aget (destroyAnimation s id).destroyCbs id = none ∧
    aget (destroyAnimation s id).completeCbs id = aget s.completeCbs id := by
  obtain ⟨hD, _, hfr, hnf, hdc, hcc⟩ := destroyAnimation_spec s id hI.wfc hdead
  refine ⟨?_, hfr, hnf, hdc, hcc⟩
  obtain ⟨l, hl, hlN, hlP⟩ := hD.anim_erase
  rw [hl]
  intro hmem
  rcases List.mem_append.mp hmem with h1 | h2
  · exact hI.animNd.not_mem_erase h1
  · have hlt : id < s.count := by
      cases hg : getInst s id with
      | none => simp [isDestroyed, hg] at hdead
      | some i => exact hI.wfc id (by simp [hg])
    have := (hlP id h2).1
    omega

theorem c7_amended_witness :
    isDestroyed (runScript [.ext .newLoop, .ext (.onCompleteId 0 .skip),
        .ext (.destroyId 0)] Sched.init) 0 = true ∧
    (0 ∉ (destroyAnimation (runScript [.ext .newLoop, .ext (.onCompleteId 0 .skip),
        .ext (.destroyId 0)] Sched.init) 0).animations ∧
      aget (destroyAnimation (runScript [.ext .newLoop, .ext (.onCompleteId 0 .skip),
        .ext (.destroyId 0)] Sched.init) 0).frameCbs 0 = none ∧
      aget (destroyAnimation (runScript [.ext .newLoop, .ext (.onCompleteId 0 .skip),
        .ext (.destroyId 0)] Sched.init) 0).nextFrameCbs 0 = none ∧
      aget (destroyAnimation (runScript [.ext .newLoop, .ext (.onCompleteId 0 .skip),
        .ext (.destroyId 0)] Sched.init) 0).destroyCbs 0 = none ∧
      aget (destroyAnimation (runScript [.ext .newLoop, .ext (.onCompleteId 0 .skip),
        .ext (.destroyId 0)] Sched.init) 0).completeCbs 0
        = aget (runScript [.ext .newLoop, .ext (.onCompleteId 0 .skip),
        .ext (.destroyId 0)] Sched.init).completeCbs 0) :=
  ⟨by with_unfolding_all decide,
   c7_amended _ 0 (inv_reach _) (by with_unfolding_all decide)⟩

/-! ### C9: ease resolution -/

/-- Claim C9 (amended): `safeEase` returns the easing-table entry when
given a valid easing name, the supplied function unchanged when given a
function, and the identity when the ease argument is unspecified; but an
invalid easing name resolves to `undefined` (`none`), NOT to the
identity function — the tween then crashes when it calls the resolved
ease. -/
theorem c9_amended :
    (∀ (n : String) (f : Rat → Rat), easingLookup n = some f →
      safeEase (.name n) = some f) ∧
    (∀ f : Rat → Rat, safeEase (.fnArg f) = some f) ∧
    safeEase .unspecified = some (fun x => x) ∧
    (∀ n : String, easingLookup n = none → safeEase (.name n) = none) :=
  ⟨fun _ _ h => h, fun _ => rfl, rfl, fun _ h => h⟩

theorem c9_amended_witness :
    safeEase (.name "in2") = some (fun x => x * x) ∧
    safeEase (.name "out7") = none :=
  ⟨c9_amended.1 "in2" (fun x => x * x) rfl, c9_amended.2.2.2 "out7" rfl⟩

end SomeUtils
